import Mathlib

/-!
Verification of the file-discovery engine of the menu-kit files plugin
(`src/plugins/files/__init__.py`).  The configuration model, the fallback
walker `_scan_with_python`, the delegate backend `_scan_with_fd` and the
config loader `_load_config` are embedded shallowly; the external `fd`
utility itself is modelled from the documented delegate contract.
-/

/-- Configuration for the files plugin, mirroring the fields of the
`FilesConfig` dataclass. -/
structure FilesConfig where
  scan_paths : List String
  max_depth : Int
  include_extensions : List String
  exclude_patterns : List String
  max_files : Int

/-- The dataclass field defaults of `FilesConfig`. -/
def defaultFilesConfig : FilesConfig :=
  { scan_paths := ["~/Documents", "~/Downloads", "~/Projects"]
    max_depth := 5
    include_extensions := []
    exclude_patterns := [".git", "__pycache__", "node_modules", ".venv", "venv", ".cache"]
    max_files := 10000 }

/-- Number of occurrences of the path separator in a string, modelling
`str.count(os.sep)` on POSIX. -/
def countSep (s : String) : Nat := s.data.count '/'

/-- Whether a string ends with the path separator. -/
def sepEnds (s : String) : Bool := s.data.getLast? == some '/'

/-- Model of `os.path.join(p, n)` for a relative component `n`: a separator is
inserted unless the base already ends with one. -/
def pjoin (p n : String) : String := if sepEnds p then p ++ n else p ++ "/" ++ n

/-- Left fold of `pjoin` over a component list. -/
def joinAll (p : String) (comps : List String) : String := comps.foldl pjoin p

/-- Model of `str.lstrip(".")`: drops every leading dot character. -/
def lstripDots (s : String) : String := String.mk (s.data.dropWhile (fun c => c == '.'))

/-- Characters strictly after the last occurrence of `c`, when `c` occurs. -/
def afterLast (c : Char) : List Char → Option (List Char)
  | [] => none
  | a :: rest =>
    match afterLast c rest with
    | some r => some r
    | none => if a = c then some rest else none

/-- Model of `Path(name).suffix.lstrip(".")`: pathlib's suffix is `name[i:]`
when the last dot index `i` satisfies `0 < i < len(name) - 1` and is empty
otherwise; `lstrip` then removes the leading dot. -/
def pyExt (name : String) : String :=
  match afterLast '.' name.data with
  | none => ""
  | some r => if r ≠ [] ∧ r.length + 1 < name.data.length then String.mk r else ""

/-- Model of `str.startswith(".")`. -/
def hiddenName (n : String) : Bool := n.data.head? == some '.'

/-- File filter of `_scan_with_python`: hidden files are skipped, and when the
extension list is non-empty the stripped suffix must be a member of it. -/
def pyAcceptFile (cfg : FilesConfig) (n : String) : Bool :=
  !hiddenName n &&
    (cfg.include_extensions.isEmpty || cfg.include_extensions.contains (pyExt n))

/-- Directory filter of `_scan_with_python`: a directory is descended into
unless its name is an exclude pattern or starts with a dot. -/
def pyKeepDir (cfg : FilesConfig) (n : String) : Bool :=
  !cfg.exclude_patterns.contains n && !hiddenName n

/-- Depth as computed by `_scan_with_python`: separator count of the current
directory string minus separator count of the scan root string. -/
def pyDepth (base cur : String) : Int := (countSep cur : Int) - (countSep base : Int)

mutual
/-- A directory entry of the modelled filesystem: a regular file, or a
directory with a readability flag and its children. -/
inductive Entry where
  | file : String → Entry
  | dir : String → Bool → Entries → Entry
/-- A finite listing of directory entries, in scandir order. -/
inductive Entries where
  | nil : Entries
  | cons : Entry → Entries → Entries
end

/-- A resolved scan root: readability of the root directory and its entries. -/
structure RootDir where
  readable : Bool
  entries : Entries

/-- Outcome of one external fd invocation at the subprocess boundary: normal
exit 0, normal nonzero exit, or an exception such as a timeout. -/
inductive FdOutcome where
  | ok : FdOutcome
  | exitErr : FdOutcome
  | timeout : FdOutcome
deriving DecidableEq

/-- Filesystem and environment state a scan runs against: home expansion of a
configured root string, existence and content of a resolved root, and the
outcome of the fd subprocess for a resolved root. -/
structure FSState where
  expanduser : String → String
  lookup : String → Option RootDir
  fdOutcome : String → FdOutcome

/-- File-collecting pass of `_scan_with_python` over one directory listing:
accepted files are appended in order and the walk stops as soon as the running
total reaches `max_files` (the length check runs after each append). -/
def pyCollect (cfg : FilesConfig) (cur : String) : Entries → List String → List String × Bool
  | .nil, acc => (acc, false)
  | .cons (.file n) rest, acc =>
    if pyAcceptFile cfg n then
      let acc2 := acc ++ [pjoin cur n]
      if cfg.max_files ≤ (acc2.length : Int) then (acc2, true)
      else pyCollect cfg cur rest acc2
    else pyCollect cfg cur rest acc
  | .cons (.dir _ _ _) rest, acc => pyCollect cfg cur rest acc

/-- Descent pass of `_scan_with_python`: `os.walk` visits each kept
subdirectory depth-first after the current directory's files; an unreadable
directory yields nothing (the scandir error is swallowed by `os.walk`), the
depth guard skips a directory whose computed depth has reached `max_depth`,
and the boolean signals the early return taken at the file cap. -/
def pyDirs (cfg : FilesConfig) (base : String) : String → Entries → List String → List String × Bool
  | _, .nil, acc => (acc, false)
  | cur, .cons (.file _) rest, acc => pyDirs cfg base cur rest acc
  | cur, .cons (.dir n r sub) rest, acc =>
    if pyKeepDir cfg n then
      match
        (if !r then (acc, false)
        else if 0 < cfg.max_depth ∧ cfg.max_depth ≤ pyDepth base (pjoin cur n) then (acc, false)
        else
          match pyCollect cfg (pjoin cur n) sub acc with
          | (a, true) => (a, true)
          | (a, false) => pyDirs cfg base (pjoin cur n) sub a) with
      | (a, true) => (a, true)
      | (a, false) => pyDirs cfg base cur rest a
    else pyDirs cfg base cur rest acc

/-- One root of `_scan_with_python`: `os.walk` starting at the resolved root
path `p`; the root directory itself is subject only to readability and the
depth guard at computed depth `pyDepth p p`. -/
def pyVisitRoot (cfg : FilesConfig) (p : String) (rd : RootDir) (acc : List String) :
    List String × Bool :=
  if !rd.readable then (acc, false)
  else if 0 < cfg.max_depth ∧ cfg.max_depth ≤ pyDepth p p then (acc, false)
  else
    match pyCollect cfg p rd.entries acc with
    | (a, true) => (a, true)
    | (a, false) => pyDirs cfg p p rd.entries a

/-- Root loop of `_scan_with_python`: non-existent roots are skipped, and the
early return at the cap propagates the accumulated list across roots. -/
def scanPyGo (cfg : FilesConfig) (st : FSState) : List String → List String → List String
  | [], acc => acc
  | sp :: rest, acc =>
    match st.lookup (st.expanduser sp) with
    | none => scanPyGo cfg st rest acc
    | some rd =>
      match pyVisitRoot cfg (st.expanduser sp) rd acc with
      | (a, true) => a
      | (a, false) => scanPyGo cfg st rest a

/-- Embedding of `FilesPlugin._scan_with_python`. -/
def scanPython (cfg : FilesConfig) (st : FSState) : List String :=
  scanPyGo cfg st cfg.scan_paths []

/-- Extension match of the external utility: the stripped extension argument
must occur as a dot-suffix of the file name.  Modelled from the spec: the
delegate contract of section 6 with the filter semantics of section 3. -/
def fdExtMatch (n e : String) : Bool := ('.' :: e.data).isSuffixOf n.data

/-- File filter of the modelled external utility: hidden files and files whose
name matches an exclude pattern are omitted; with extension arguments present,
some stripped extension must match.  Modelled from the spec: exclude patterns
are taken as literal names. -/
def fdAcceptFile (cfg : FilesConfig) (n : String) : Bool :=
  !hiddenName n && !cfg.exclude_patterns.contains n &&
    (cfg.include_extensions.isEmpty ||
      cfg.include_extensions.any (fun e => fdExtMatch n (lstripDots e)))

/-- Directory filter of the modelled external utility: a hidden or excluded
directory is pruned with its whole subtree.  Modelled from the spec. -/
def fdKeepDir (cfg : FilesConfig) (n : String) : Bool :=
  !hiddenName n && !cfg.exclude_patterns.contains n

/-- Files pass of the modelled external utility in one directory.  Modelled
from the spec. -/
def fdFiles (cfg : FilesConfig) (cur : String) : Entries → List String
  | .nil => []
  | .cons (.file n) rest =>
    (if fdAcceptFile cfg n then [pjoin cur n] else []) ++ fdFiles cfg cur rest
  | .cons (.dir _ _ _) rest => fdFiles cfg cur rest

/-- Descent pass of the modelled external utility, where `d` is the structural
depth of the current directory below the root; `--max-depth` bounds the depth
of reported files.  Modelled from the spec. -/
def fdDirs (cfg : FilesConfig) : String → Int → Entries → List String
  | _, _, .nil => []
  | cur, d, .cons (.file _) rest => fdDirs cfg cur d rest
  | cur, d, .cons (.dir n r sub) rest =>
    (if fdKeepDir cfg n then
      if !r then []
      else if 0 < cfg.max_depth ∧ cfg.max_depth ≤ d + 1 then []
      else fdFiles cfg (pjoin cur n) sub ++ fdDirs cfg (pjoin cur n) (d + 1) sub
    else []) ++ fdDirs cfg cur d rest

/-- Output lines of a successful fd run on one root: regular files only, as
absolute paths.  Modelled from the spec (section 6). -/
def fdRootLines (cfg : FilesConfig) (p : String) (rd : RootDir) : List String :=
  if !rd.readable then [] else fdFiles cfg p rd.entries ++ fdDirs cfg p 0 rd.entries

/-- Model of the python list slice `l[:m]`, including a negative bound. -/
def sliceTo (l : List String) (m : Int) : List String :=
  if 0 ≤ m then l.take m.toNat else l.take ((l.length : Int) + m).toNat

/-- Root loop of `_scan_with_fd`: missing roots are skipped; a timeout or any
other exception continues with the next root before the cap check; a nonzero
exit contributes nothing but still reaches the cap check; a successful run
contributes its non-empty output lines; reaching `max_files` truncates the
accumulated list and breaks. -/
def scanFdGo (cfg : FilesConfig) (st : FSState) : List String → List String → List String
  | [], acc => acc
  | sp :: rest, acc =>
    match st.lookup (st.expanduser sp) with
    | none => scanFdGo cfg st rest acc
    | some rd =>
      match st.fdOutcome (st.expanduser sp) with
      | .timeout => scanFdGo cfg st rest acc
      | .exitErr =>
        if cfg.max_files ≤ (acc.length : Int) then sliceTo acc cfg.max_files
        else scanFdGo cfg st rest acc
      | .ok =>
        let acc2 := acc ++ (fdRootLines cfg (st.expanduser sp) rd).filter (fun f => f != "")
        if cfg.max_files ≤ (acc2.length : Int) then sliceTo acc2 cfg.max_files
        else scanFdGo cfg st rest acc2

/-- Embedding of `FilesPlugin._scan_with_fd`. -/
def scanFd (cfg : FilesConfig) (st : FSState) : List String :=
  scanFdGo cfg st cfg.scan_paths []

/-- Uncapped file pass of the fallback walker in one directory (specification
helper used to characterise the capped walker). -/
def pyPureFiles (cfg : FilesConfig) (cur : String) : Entries → List String
  | .nil => []
  | .cons (.file n) rest =>
    (if pyAcceptFile cfg n then [pjoin cur n] else []) ++ pyPureFiles cfg cur rest
  | .cons (.dir _ _ _) rest => pyPureFiles cfg cur rest

/-- Uncapped descent pass of the fallback walker (specification helper). -/
def pyPureDirs (cfg : FilesConfig) (base : String) : String → Entries → List String
  | _, .nil => []
  | cur, .cons (.file _) rest => pyPureDirs cfg base cur rest
  | cur, .cons (.dir n r sub) rest =>
    (if pyKeepDir cfg n then
      if !r then []
      else if 0 < cfg.max_depth ∧ cfg.max_depth ≤ pyDepth base (pjoin cur n) then []
      else pyPureFiles cfg (pjoin cur n) sub ++ pyPureDirs cfg base (pjoin cur n) sub
    else []) ++ pyPureDirs cfg base cur rest

/-- Uncapped result of the fallback walker on one resolved root. -/
def pyVisitPure (cfg : FilesConfig) (p : String) (rd : RootDir) : List String :=
  if !rd.readable then []
  else if 0 < cfg.max_depth ∧ cfg.max_depth ≤ pyDepth p p then []
  else pyPureFiles cfg p rd.entries ++ pyPureDirs cfg p p rd.entries

/-- Uncapped contribution of one configured root to the fallback walker. -/
def pyRootFiles (cfg : FilesConfig) (st : FSState) (sp : String) : List String :=
  match st.lookup (st.expanduser sp) with
  | none => []
  | some rd => pyVisitPure cfg (st.expanduser sp) rd

/-- Uncapped concatenated fallback-walker output across all configured roots,
in root-declaration order. -/
def pyAll (cfg : FilesConfig) (st : FSState) : List String :=
  cfg.scan_paths.flatMap (pyRootFiles cfg st)

/-- Contribution of one configured root to `_scan_with_fd` before the cap:
nothing for a missing root or a failing invocation, the non-empty output lines
otherwise. -/
def fdRootContribution (cfg : FilesConfig) (st : FSState) (sp : String) : List String :=
  match st.lookup (st.expanduser sp) with
  | none => []
  | some rd =>
    match st.fdOutcome (st.expanduser sp) with
    | .ok => (fdRootLines cfg (st.expanduser sp) rd).filter (fun f => f != "")
    | _ => []

/-- Uncapped concatenated delegate-backend output across all configured roots,
in root-declaration order. -/
def fdAll (cfg : FilesConfig) (st : FSState) : List String :=
  cfg.scan_paths.flatMap (fdRootContribution cfg st)

/-- Effect of the running cap check on an accumulated list: stop with the
first `max_files` elements once the length has reached the cap. -/
def capStep (m : Int) (l : List String) : List String × Bool :=
  if m ≤ (l.length : Int) then (l.take m.toNat, true) else (l, false)

theorem capStep_of_lt {m : Int} {l : List String} (h : (l.length : Int) < m) :
    capStep m l = (l, false) := by
  simp only [capStep, if_neg (not_le.mpr h)]

theorem capStep_of_le {m : Int} {l : List String} (h : m ≤ (l.length : Int)) :
    capStep m l = (l.take m.toNat, true) := by
  simp only [capStep, if_pos h]

theorem capStep_append_of_le {m : Int} {l₁ : List String} (l₂ : List String)
    (h : m ≤ (l₁.length : Int)) :
    capStep m (l₁ ++ l₂) = (l₁.take m.toNat, true) := by
  have hlen : m ≤ ((l₁ ++ l₂).length : Int) := by
    simp only [List.length_append]
    push_cast
    omega
  have htn : m.toNat ≤ l₁.length := Int.toNat_le.mpr h
  simp only [capStep, if_pos hlen, List.take_append_of_le_length htn]

/-- Characterisation of the capped file pass: starting below the cap, it
returns the concatenation truncated at the cap, flagging the early return. -/
theorem pyCollect_char (cfg : FilesConfig) (cur : String) :
    ∀ (es : Entries) (acc : List String), (acc.length : Int) < cfg.max_files →
      pyCollect cfg cur es acc = capStep cfg.max_files (acc ++ pyPureFiles cfg cur es)
  | .nil, acc, h => by
    simp only [pyCollect, pyPureFiles, List.append_nil, capStep_of_lt h]
  | .cons (.file n) rest, acc, h => by
    by_cases ha : pyAcceptFile cfg n
    · simp only [pyCollect, if_pos ha, pyPureFiles, ha, if_true]
      by_cases hcap : cfg.max_files ≤ ((acc ++ [pjoin cur n]).length : Int)
      · simp only [if_pos hcap]
        rw [← List.append_assoc, capStep_append_of_le _ hcap]
        have heq : cfg.max_files.toNat = (acc ++ [pjoin cur n]).length := by
          simp only [List.length_append, List.length_cons, List.length_nil] at hcap ⊢
          omega
        rw [heq, List.take_length]
      · simp only [if_neg hcap]
        rw [pyCollect_char cfg cur rest (acc ++ [pjoin cur n]) (not_le.mp hcap),
          List.append_assoc]
    · simp only [pyCollect, if_neg ha, pyPureFiles, ha, if_false, List.nil_append]
      exact pyCollect_char cfg cur rest acc h
  | .cons (.dir n b sub) rest, acc, h => by
    simp only [pyCollect, pyPureFiles]
    exact pyCollect_char cfg cur rest acc h

theorem append_regroup (a b c : List String) : a ++ (b ++ c) = (a ++ b) ++ c :=
  (List.append_assoc a b c).symm

/-- Characterisation of the capped descent pass: starting below the cap, it
returns the concatenation truncated at the cap, flagging the early return. -/
theorem pyDirs_char (cfg : FilesConfig) (base : String) :
    ∀ (cur : String) (es : Entries) (acc : List String), (acc.length : Int) < cfg.max_files →
      pyDirs cfg base cur es acc = capStep cfg.max_files (acc ++ pyPureDirs cfg base cur es)
  | cur, .nil, acc, h => by
    simp only [pyDirs, pyPureDirs, List.append_nil, capStep_of_lt h]
  | cur, .cons (.file n) rest, acc, h => by
    simp only [pyDirs, pyPureDirs]
    exact pyDirs_char cfg base cur rest acc h
  | cur, .cons (.dir n r sub) rest, acc, h => by
    rw [pyDirs, pyPureDirs]
    by_cases hk : pyKeepDir cfg n = true
    · rw [if_pos hk, if_pos hk]
      cases r with
      | false =>
        simp only [Bool.not_false, if_true, List.nil_append]
        exact pyDirs_char cfg base cur rest acc h
      | true =>
        simp only [Bool.not_true, Bool.false_eq_true, if_false]
        by_cases hg : 0 < cfg.max_depth ∧ cfg.max_depth ≤ pyDepth base (pjoin cur n)
        · rw [if_pos hg, if_pos hg]
          simp only [List.nil_append]
          exact pyDirs_char cfg base cur rest acc h
        · rw [if_neg hg, if_neg hg]
          rw [pyCollect_char cfg (pjoin cur n) sub acc h]
          by_cases hc :
              cfg.max_files ≤ ((acc ++ pyPureFiles cfg (pjoin cur n) sub).length : Int)
          · rw [capStep_of_le hc]
            dsimp only
            rw [append_regroup, append_regroup, ← append_regroup (acc ++ _) _ _,
              capStep_append_of_le _ hc]
          · rw [capStep_of_lt (not_le.mp hc)]
            dsimp only
            rw [pyDirs_char cfg base (pjoin cur n) sub _ (not_le.mp hc)]
            by_cases hd : cfg.max_files ≤
                (((acc ++ pyPureFiles cfg (pjoin cur n) sub) ++
                  pyPureDirs cfg base (pjoin cur n) sub).length : Int)
            · rw [capStep_of_le hd]
              dsimp only
              rw [append_regroup, append_regroup, capStep_append_of_le _ hd]
            · rw [capStep_of_lt (not_le.mp hd)]
              dsimp only
              rw [pyDirs_char cfg base cur rest _ (not_le.mp hd)]
              rw [append_regroup, append_regroup]
    · rw [if_neg hk, if_neg hk]
      simp only [List.nil_append]
      exact pyDirs_char cfg base cur rest acc h

/-- Characterisation of one root visit of the fallback walker. -/
theorem pyVisitRoot_char (cfg : FilesConfig) (p : String) (rd : RootDir) (acc : List String)
    (h : (acc.length : Int) < cfg.max_files) :
    pyVisitRoot cfg p rd acc = capStep cfg.max_files (acc ++ pyVisitPure cfg p rd) := by
  rw [pyVisitRoot, pyVisitPure]
  cases hr : rd.readable with
  | false =>
    simp only [Bool.not_false, if_true, List.append_nil, capStep_of_lt h]
  | true =>
    simp only [Bool.not_true, Bool.false_eq_true, if_false]
    by_cases hg : 0 < cfg.max_depth ∧ cfg.max_depth ≤ pyDepth p p
    · rw [if_pos hg, if_pos hg, List.append_nil, capStep_of_lt h]
    · rw [if_neg hg, if_neg hg]
      rw [pyCollect_char cfg p rd.entries acc h]
      by_cases hc : cfg.max_files ≤ ((acc ++ pyPureFiles cfg p rd.entries).length : Int)
      · rw [capStep_of_le hc]
        dsimp only
        rw [append_regroup, capStep_append_of_le _ hc]
      · rw [capStep_of_lt (not_le.mp hc)]
        dsimp only
        rw [pyDirs_char cfg p p rd.entries _ (not_le.mp hc), append_regroup]

/-- Characterisation of the root loop of the fallback walker. -/
theorem scanPyGo_char (cfg : FilesConfig) (st : FSState) :
    ∀ (sps : List String) (acc : List String), (acc.length : Int) < cfg.max_files →
      scanPyGo cfg st sps acc =
        (capStep cfg.max_files (acc ++ sps.flatMap (pyRootFiles cfg st))).1
  | [], acc, h => by
    simp only [scanPyGo, List.flatMap_nil, List.append_nil, capStep_of_lt h]
  | sp :: rest, acc, h => by
    rw [scanPyGo, List.flatMap_cons, pyRootFiles]
    cases hl : st.lookup (st.expanduser sp) with
    | none =>
      simp only [List.nil_append]
      exact scanPyGo_char cfg st rest acc h
    | some rd =>
      dsimp only
      rw [pyVisitRoot_char cfg (st.expanduser sp) rd acc h]
      by_cases hc : cfg.max_files ≤ ((acc ++ pyVisitPure cfg (st.expanduser sp) rd).length : Int)
      · rw [capStep_of_le hc]
        dsimp only
        rw [append_regroup, capStep_append_of_le _ hc]
      · rw [capStep_of_lt (not_le.mp hc)]
        dsimp only
        rw [scanPyGo_char cfg st rest _ (not_le.mp hc), append_regroup]

/-- With a positive cap, the fallback walker returns exactly the uncapped
per-root concatenation truncated to the cap. -/
theorem scanPython_char (cfg : FilesConfig) (st : FSState) (hpos : 0 < cfg.max_files) :
    scanPython cfg st = (pyAll cfg st).take cfg.max_files.toNat := by
  rw [scanPython, scanPyGo_char cfg st cfg.scan_paths [] (by simpa using hpos)]
  simp only [pyAll, List.nil_append, capStep]
  split
  · rfl
  · next hlt =>
    dsimp only
    exact (List.take_of_length_le (by omega)).symm

theorem sliceTo_of_nonneg {m : Int} (l : List String) (h : 0 ≤ m) :
    sliceTo l m = l.take m.toNat := by
  simp only [sliceTo, if_pos h]

/-- Characterisation of the root loop of the delegate backend. -/
theorem scanFdGo_char (cfg : FilesConfig) (st : FSState) :
    ∀ (sps : List String) (acc : List String), (acc.length : Int) < cfg.max_files →
      scanFdGo cfg st sps acc =
        (capStep cfg.max_files (acc ++ sps.flatMap (fdRootContribution cfg st))).1
  | [], acc, h => by
    simp only [scanFdGo, List.flatMap_nil, List.append_nil, capStep_of_lt h]
  | sp :: rest, acc, h => by
    rw [scanFdGo, List.flatMap_cons, fdRootContribution]
    cases hl : st.lookup (st.expanduser sp) with
    | none =>
      simp only [List.nil_append]
      exact scanFdGo_char cfg st rest acc h
    | some rd =>
      cases ho : st.fdOutcome (st.expanduser sp) with
      | timeout =>
        dsimp only
        simp only [List.nil_append]
        exact scanFdGo_char cfg st rest acc h
      | exitErr =>
        dsimp only
        rw [if_neg (not_le.mpr h)]
        simp only [List.nil_append]
        exact scanFdGo_char cfg st rest acc h
      | ok =>
        dsimp only
        by_cases hc : cfg.max_files ≤
            ((acc ++ (fdRootLines cfg (st.expanduser sp) rd).filter (fun f => f != "")).length :
              Int)
        · rw [if_pos hc, append_regroup, capStep_append_of_le _ hc,
            sliceTo_of_nonneg _ (by omega)]
        · rw [if_neg hc]
          rw [scanFdGo_char cfg st rest _ (not_le.mp hc), append_regroup]

/-- With a positive cap, the delegate backend returns exactly the uncapped
per-root concatenation truncated to the cap. -/
theorem scanFd_char (cfg : FilesConfig) (st : FSState) (hpos : 0 < cfg.max_files) :
    scanFd cfg st = (fdAll cfg st).take cfg.max_files.toNat := by
  rw [scanFd, scanFdGo_char cfg st cfg.scan_paths [] (by simpa using hpos)]
  simp only [fdAll, List.nil_append, capStep]
  split
  · rfl
  · next hlt =>
    dsimp only
    exact (List.take_of_length_le (by omega)).symm

/-- A stored configuration record, as read from the plugin data store: every
field is optional. -/
structure ConfigRecord where
  scan_paths : Option (List String) := none
  max_depth : Option Int := none
  include_extensions : Option (List String) := none
  exclude_patterns : Option (List String) := none
  max_files : Option Int := none

/-- A python exception escaping `_load_config`: an AttributeError raised by a
class attribute access, carrying the attribute name. -/
inductive PyError where
  | attributeError : String → PyError
deriving DecidableEq

/-- Python class attribute access `FilesConfig.<name>`: an absent attribute
raises AttributeError. -/
def getClassAttr {α : Type} (name : String) : Option α → Except PyError α
  | some v => .ok v
  | none => .error (.attributeError name)

/-- Class attribute `FilesConfig.scan_paths` after dataclass processing: the
field is declared with a `default_factory`, so its `Field.default` is MISSING
and dataclasses deletes the class attribute; the access raises. -/
def classAttrScanPaths : Option (List String) := none

/-- Class attribute `FilesConfig.max_depth`: declared with the plain default
5, which dataclass processing keeps as the class attribute. -/
def classAttrMaxDepth : Option Int := some 5

/-- Class attribute `FilesConfig.include_extensions`: declared with a
`default_factory`, so the class attribute is deleted and the access raises. -/
def classAttrIncludeExtensions : Option (List String) := none

/-- Class attribute `FilesConfig.exclude_patterns`: declared with a
`default_factory`, so the class attribute is deleted and the access raises. -/
def classAttrExcludePatterns : Option (List String) := none

/-- Class attribute `FilesConfig.max_files`: declared with the plain default
10000, which dataclass processing keeps as the class attribute. -/
def classAttrMaxFiles : Option Int := some 10000

/-- Embedding of `FilesPlugin._load_config`: with no stored record the
dataclass defaults are used; otherwise every `data.get(key, FilesConfig.key)`
evaluates its class-attribute default argument eagerly, in field order,
before the dictionary lookup happens. -/
def load_config (data : Option ConfigRecord) : Except PyError FilesConfig :=
  match data with
  | none => .ok defaultFilesConfig
  | some d => do
    let dsp ← getClassAttr "scan_paths" classAttrScanPaths
    let dmd ← getClassAttr "max_depth" classAttrMaxDepth
    let die ← getClassAttr "include_extensions" classAttrIncludeExtensions
    let dep ← getClassAttr "exclude_patterns" classAttrExcludePatterns
    let dmf ← getClassAttr "max_files" classAttrMaxFiles
    .ok { scan_paths := d.scan_paths.getD dsp
          max_depth := d.max_depth.getD dmd
          include_extensions := d.include_extensions.getD die
          exclude_patterns := d.exclude_patterns.getD dep
          max_files := d.max_files.getD dmf }

/-- Command line built by `_scan_with_fd` for one resolved root. -/
def fdCmd (cfg : FilesConfig) (p : String) : List String :=
  ["fd", "--type", "f", "--absolute-path"]
    ++ (if 0 < cfg.max_depth then ["--max-depth", toString cfg.max_depth] else [])
    ++ cfg.exclude_patterns.flatMap (fun pat => ["--exclude", pat])
    ++ (if cfg.include_extensions.isEmpty then []
        else cfg.include_extensions.flatMap (fun e => ["--extension", lstripDots e]))
    ++ [p]

/-- Reading of the claim's phrase for the fallback filter: the characters of
the file name after the final dot, empty when there is no dot. -/
def specAfterDot (n : String) : String := String.mk ((afterLast '.' n.data).getD [])

theorem afterLast_eq_none {c : Char} : ∀ l : List Char, afterLast c l = none → c ∉ l
  | [], _ => by simp
  | a :: rest, h => by
    rw [afterLast] at h
    cases hr : afterLast c rest with
    | some r => rw [hr] at h; exact absurd h (by simp)
    | none =>
      rw [hr] at h
      by_cases hac : a = c
      · rw [if_pos hac] at h; exact absurd h (by simp)
      · rw [if_neg hac] at h
        simp only [List.mem_cons, not_or]
        exact ⟨fun hca => hac hca.symm, afterLast_eq_none rest hr⟩

theorem afterLast_not_mem {c : Char} : ∀ (l r : List Char), afterLast c l = some r → c ∉ r
  | [], r, h => by simp [afterLast] at h
  | a :: rest, r, h => by
    rw [afterLast] at h
    cases hr : afterLast c rest with
    | some r2 =>
      rw [hr] at h
      have : r2 = r := by injection h
      exact this ▸ afterLast_not_mem rest r2 hr
    | none =>
      rw [hr] at h
      by_cases hac : a = c
      · rw [if_pos hac] at h
        have : rest = r := by injection h
        exact this ▸ afterLast_eq_none rest hr
      · rw [if_neg hac] at h; exact absurd h (by simp)

theorem afterLast_decomp {c : Char} : ∀ (l r : List Char), afterLast c l = some r →
    ∃ pre, l = pre ++ c :: r
  | [], r, h => by simp [afterLast] at h
  | a :: rest, r, h => by
    rw [afterLast] at h
    cases hr : afterLast c rest with
    | some r2 =>
      rw [hr] at h
      have hr2 : r2 = r := by injection h
      obtain ⟨pre, hpre⟩ := afterLast_decomp rest r2 hr
      exact ⟨a :: pre, by rw [hpre, hr2]; rfl⟩
    | none =>
      rw [hr] at h
      by_cases hac : a = c
      · rw [if_pos hac] at h
        have : rest = r := by injection h
        exact ⟨[], by rw [hac, this]; rfl⟩
      · rw [if_neg hac] at h; exact absurd h (by simp)

/-- The stripped suffix computed by the fallback walker never contains a dot:
it consists of the characters after the final dot of the name. -/
theorem pyExt_no_dot (n : String) : '.' ∉ (pyExt n).data := by
  rw [pyExt]
  cases ha : afterLast '.' n.data with
  | none => simp
  | some r =>
    dsimp only
    by_cases hg : r ≠ [] ∧ r.length + 1 < n.data.length
    · rw [if_pos hg]
      exact afterLast_not_mem n.data r ha
    · rw [if_neg hg]; simp

/-- A configured extension entry containing a dot (a leading-dot entry such as
".txt", or a multi-part entry such as "tar.gz") can never equal the stripped
suffix of any file name. -/
theorem pyExt_ne_of_dot {e : String} (n : String) (hd : '.' ∈ e.data) : pyExt n ≠ e := by
  intro he
  exact pyExt_no_dot n (he ▸ hd)

/-- On a non-hidden file name, pathlib's guarded suffix computation agrees
with the plain characters-after-the-final-dot reading. -/
theorem pyExt_eq_specAfterDot (n : String) (h : hiddenName n = false) :
    pyExt n = specAfterDot n := by
  rw [pyExt, specAfterDot]
  cases ha : afterLast '.' n.data with
  | none => rfl
  | some r =>
    dsimp only
    cases r with
    | nil => rfl
    | cons c' r' =>
      obtain ⟨pre, hpre⟩ := afterLast_decomp n.data _ ha
      cases pre with
      | nil =>
        exfalso
        rw [hiddenName, hpre] at h
        simp at h
      | cons p0 ps =>
        rw [if_pos]
        · rfl
        · constructor
          · simp
          · rw [hpre]
            simp only [List.length_append, List.length_cons]
            omega

/-- Every element of the capped file pass lies in the accumulated list or the
uncapped file pass. -/
theorem pyCollect_subset (cfg : FilesConfig) (cur : String) :
    ∀ (es : Entries) (acc : List String) (q : String),
      q ∈ (pyCollect cfg cur es acc).1 → q ∈ acc ++ pyPureFiles cfg cur es
  | .nil, acc, q, h => by
    simp only [pyCollect] at h
    simp only [pyPureFiles, List.append_nil]
    exact h
  | .cons (.file n) rest, acc, q, h => by
    simp only [pyCollect] at h
    simp only [pyPureFiles]
    by_cases ha : pyAcceptFile cfg n = true
    · rw [if_pos ha] at h
      rw [if_pos ha]
      by_cases hc : cfg.max_files ≤ ((acc ++ [pjoin cur n]).length : Int)
      · rw [if_pos hc] at h
        simp only [List.mem_append, List.mem_singleton] at h
        simp only [List.singleton_append, List.append_assoc, List.mem_append,
          List.mem_cons]
        tauto
      · rw [if_neg hc] at h
        have h2 := pyCollect_subset cfg cur rest (acc ++ [pjoin cur n]) q h
        simp only [List.mem_append, List.mem_singleton] at h2
        simp only [List.singleton_append, List.append_assoc, List.mem_append,
          List.mem_cons]
        tauto
    · rw [if_neg ha] at h
      rw [if_neg ha]
      simp only [List.nil_append]
      exact pyCollect_subset cfg cur rest acc q h
  | .cons (.dir n b sub) rest, acc, q, h => by
    simp only [pyCollect] at h
    simp only [pyPureFiles]
    exact pyCollect_subset cfg cur rest acc q h

/-- Every element of the capped descent pass lies in the accumulated list or
the uncapped descent pass. -/
theorem pyDirs_subset (cfg : FilesConfig) (base : String) :
    ∀ (cur : String) (es : Entries) (acc : List String) (q : String),
      q ∈ (pyDirs cfg base cur es acc).1 → q ∈ acc ++ pyPureDirs cfg base cur es
  | cur, .nil, acc, q, h => by
    simp only [pyDirs] at h
    simp only [pyPureDirs, List.append_nil]
    exact h
  | cur, .cons (.file n) rest, acc, q, h => by
    simp only [pyDirs] at h
    simp only [pyPureDirs]
    exact pyDirs_subset cfg base cur rest acc q h
  | cur, .cons (.dir n r sub) rest, acc, q, h => by
    simp only [pyDirs] at h
    simp only [pyPureDirs]
    by_cases hk : pyKeepDir cfg n = true
    · rw [if_pos hk] at h
      rw [if_pos hk]
      cases r with
      | false =>
        simp only [Bool.not_false, if_true] at h
        simp only [Bool.not_false, if_true, List.nil_append]
        exact pyDirs_subset cfg base cur rest acc q h
      | true =>
        simp only [Bool.not_true, Bool.false_eq_true, if_false] at h ⊢
        by_cases hg : 0 < cfg.max_depth ∧ cfg.max_depth ≤ pyDepth base (pjoin cur n)
        · rw [if_pos hg] at h
          rw [if_pos hg]
          simp only [List.nil_append]
          exact pyDirs_subset cfg base cur rest acc q h
        · rw [if_neg hg] at h
          rw [if_neg hg]
          rcases hpc : pyCollect cfg (pjoin cur n) sub acc with ⟨a, b⟩
          rw [hpc] at h
          have hsubA : ∀ x ∈ a, x ∈ acc ++ pyPureFiles cfg (pjoin cur n) sub := by
            intro x hx
            exact pyCollect_subset cfg (pjoin cur n) sub acc x (by rw [hpc]; exact hx)
          cases b with
          | true =>
            simp only at h
            have := hsubA q h
            simp only [List.append_assoc, List.mem_append] at this ⊢
            tauto
          | false =>
            simp only at h
            rcases hpd : pyDirs cfg base (pjoin cur n) sub a with ⟨a2, b2⟩
            rw [hpd] at h
            have hsubA2 : ∀ x ∈ a2,
                x ∈ acc ++ (pyPureFiles cfg (pjoin cur n) sub ++
                  pyPureDirs cfg base (pjoin cur n) sub) := by
              intro x hx
              have hx2 := pyDirs_subset cfg base (pjoin cur n) sub a x
                (by rw [hpd]; exact hx)
              rcases List.mem_append.mp hx2 with h1 | h2
              · have := hsubA x h1
                simp only [List.mem_append] at this ⊢
                tauto
              · simp only [List.mem_append]
                tauto
            cases b2 with
            | true =>
              simp only at h
              have := hsubA2 q h
              simp only [List.append_assoc, List.mem_append] at this ⊢
              tauto
            | false =>
              simp only at h
              have h2 := pyDirs_subset cfg base cur rest a2 q h
              rcases List.mem_append.mp h2 with h1 | h1
              · have := hsubA2 q h1
                simp only [List.append_assoc, List.mem_append] at this ⊢
                tauto
              · simp only [List.append_assoc, List.mem_append]
                tauto
    · rw [if_neg hk] at h
      rw [if_neg hk]
      simp only [List.nil_append]
      exact pyDirs_subset cfg base cur rest acc q h

/-- Every element of one capped root visit lies in the accumulated list or
the uncapped root visit. -/
theorem pyVisitRoot_subset (cfg : FilesConfig) (p : String) (rd : RootDir)
    (acc : List String) (q : String) (h : q ∈ (pyVisitRoot cfg p rd acc).1) :
    q ∈ acc ++ pyVisitPure cfg p rd := by
  rw [pyVisitRoot] at h
  rw [pyVisitPure]
  cases hr : rd.readable with
  | false =>
    rw [hr] at h
    simp only [Bool.not_false, if_true] at h
    simp only [Bool.not_false, if_true, List.append_nil]
    exact h
  | true =>
    rw [hr] at h
    simp only [Bool.not_true, Bool.false_eq_true, if_false] at h ⊢
    by_cases hg : 0 < cfg.max_depth ∧ cfg.max_depth ≤ pyDepth p p
    · rw [if_pos hg] at h
      rw [if_pos hg]
      simp only [List.append_nil]
      exact h
    · rw [if_neg hg] at h
      rw [if_neg hg]
      rcases hpc : pyCollect cfg p rd.entries acc with ⟨a, b⟩
      rw [hpc] at h
      have hsubA : ∀ x ∈ a, x ∈ acc ++ pyPureFiles cfg p rd.entries := by
        intro x hx
        exact pyCollect_subset cfg p rd.entries acc x (by rw [hpc]; exact hx)
      cases b with
      | true =>
        simp only at h
        have := hsubA q h
        simp only [List.append_assoc, List.mem_append] at this ⊢
        tauto
      | false =>
        simp only at h
        have h2 := pyDirs_subset cfg p p rd.entries a q h
        rcases List.mem_append.mp h2 with h1 | h1
        · have := hsubA q h1
          simp only [List.append_assoc, List.mem_append] at this ⊢
          tauto
        · simp only [List.append_assoc, List.mem_append]
          tauto

/-- Every element of the capped root loop of the fallback walker lies in the
accumulated list or the uncapped concatenation. -/
theorem scanPyGo_subset (cfg : FilesConfig) (st : FSState) :
    ∀ (sps : List String) (acc : List String) (q : String),
      q ∈ scanPyGo cfg st sps acc → q ∈ acc ++ sps.flatMap (pyRootFiles cfg st)
  | [], acc, q, h => by
    simp only [scanPyGo] at h
    simp only [List.flatMap_nil, List.append_nil]
    exact h
  | sp :: rest, acc, q, h => by
    simp only [scanPyGo] at h
    simp only [List.flatMap_cons, pyRootFiles]
    cases hl : st.lookup (st.expanduser sp) with
    | none =>
      rw [hl] at h
      simp only [List.nil_append]
      exact scanPyGo_subset cfg st rest acc q h
    | some rd =>
      rw [hl] at h
      simp only at h
      rcases hv : pyVisitRoot cfg (st.expanduser sp) rd acc with ⟨a, b⟩
      rw [hv] at h
      have hsubA : ∀ x ∈ a, x ∈ acc ++ pyVisitPure cfg (st.expanduser sp) rd := by
        intro x hx
        exact pyVisitRoot_subset cfg (st.expanduser sp) rd acc x (by rw [hv]; exact hx)
      cases b with
      | true =>
        simp only at h
        have := hsubA q h
        simp only [List.append_assoc, List.mem_append] at this ⊢
        tauto
      | false =>
        simp only at h
        have h2 := scanPyGo_subset cfg st rest a q h
        rcases List.mem_append.mp h2 with h1 | h1
        · have := hsubA q h1
          simp only [List.append_assoc, List.mem_append] at this ⊢
          tauto
        · simp only [List.append_assoc, List.mem_append]
          tauto

/-- Every path returned by the fallback walker occurs in the uncapped
concatenation of per-root results. -/
theorem scanPython_subset (cfg : FilesConfig) (st : FSState) (q : String)
    (h : q ∈ scanPython cfg st) : q ∈ pyAll cfg st := by
  have := scanPyGo_subset cfg st cfg.scan_paths [] q h
  simpa [pyAll] using this

theorem sliceTo_subset {q : String} (l : List String) (m : Int) (h : q ∈ sliceTo l m) :
    q ∈ l := by
  rw [sliceTo] at h
  split at h
  · exact List.take_subset _ _ h
  · exact List.take_subset _ _ h

/-- Every element of the capped root loop of the delegate backend lies in the
accumulated list or the uncapped concatenation. -/
theorem scanFdGo_subset (cfg : FilesConfig) (st : FSState) :
    ∀ (sps : List String) (acc : List String) (q : String),
      q ∈ scanFdGo cfg st sps acc → q ∈ acc ++ sps.flatMap (fdRootContribution cfg st)
  | [], acc, q, h => by
    simp only [scanFdGo] at h
    simp only [List.flatMap_nil, List.append_nil]
    exact h
  | sp :: rest, acc, q, h => by
    simp only [scanFdGo] at h
    simp only [List.flatMap_cons, fdRootContribution]
    cases hl : st.lookup (st.expanduser sp) with
    | none =>
      rw [hl] at h
      simp only [List.nil_append]
      exact scanFdGo_subset cfg st rest acc q h
    | some rd =>
      rw [hl] at h
      simp only at h
      cases ho : st.fdOutcome (st.expanduser sp) with
      | timeout =>
        rw [ho] at h
        simp only at h
        simp only [List.nil_append]
        exact scanFdGo_subset cfg st rest acc q h
      | exitErr =>
        rw [ho] at h
        simp only at h
        simp only [List.nil_append]
        split at h
        · have := sliceTo_subset acc cfg.max_files h
          exact List.mem_append.mpr (Or.inl this)
        · exact scanFdGo_subset cfg st rest acc q h
      | ok =>
        rw [ho] at h
        simp only at h
        split at h
        · have := sliceTo_subset _ cfg.max_files h
          simp only [List.mem_append] at this ⊢
          tauto
        · have h2 := scanFdGo_subset cfg st rest _ q h
          simp only [List.append_assoc, List.mem_append] at h2 ⊢
          tauto

/-- Every path returned by the delegate backend occurs in the uncapped
concatenation of per-root contributions. -/
theorem scanFd_subset (cfg : FilesConfig) (st : FSState) (q : String)
    (h : q ∈ scanFd cfg st) : q ∈ fdAll cfg st := by
  have := scanFdGo_subset cfg st cfg.scan_paths [] q h
  simpa [fdAll] using this

/-- A well-formed component name: nonempty and free of separator characters,
as POSIX guarantees for directory entry names. -/
def wfName (n : String) : Bool := decide (n ≠ "" ∧ '/' ∉ n.data)

/-- Well-formedness of a directory listing: every name in the tree is a
well-formed component name. -/
def wfEntries : Entries → Bool
  | .nil => true
  | .cons (.file n) rest => wfName n && wfEntries rest
  | .cons (.dir n _ sub) rest => wfName n && wfEntries sub && wfEntries rest

/-- No regular file anywhere in the listing bears a name that occurs in the
exclusion patterns. -/
def noExcludedFiles (cfg : FilesConfig) : Entries → Bool
  | .nil => true
  | .cons (.file n) rest => !cfg.exclude_patterns.contains n && noExcludedFiles cfg rest
  | .cons (.dir _ _ sub) rest => noExcludedFiles cfg sub && noExcludedFiles cfg rest

theorem mem_of_getLast?_eq {c : Char} {l : List Char} (h : l.getLast? = some c) : c ∈ l := by
  obtain ⟨hne, hc⟩ := List.mem_getLast?_eq_getLast (show c ∈ l.getLast? from by
    rw [h]; rfl)
  rw [hc]
  exact List.getLast_mem hne

theorem wfName_ne_empty {n : String} (h : wfName n = true) : n.data ≠ [] := by
  rw [wfName, decide_eq_true_eq] at h
  intro hd
  exact h.1 (String.ext_iff.mpr (by simpa using hd))

theorem wfName_no_sep {n : String} (h : wfName n = true) : '/' ∉ n.data := by
  rw [wfName, decide_eq_true_eq] at h
  exact h.2

/-- Joining a well-formed name onto a base that does not end in a separator
adds exactly one separator to the count. -/
theorem countSep_pjoin {p n : String} (hp : sepEnds p = false) (hn : wfName n = true) :
    countSep (pjoin p n) = countSep p + 1 := by
  rw [pjoin, hp]
  simp only [Bool.false_eq_true, if_false, countSep, String.data_append,
    List.count_append]
  have h0 : n.data.count '/' = 0 := List.count_eq_zero.mpr (wfName_no_sep hn)
  have h1 : List.count '/' ['/'] = 1 := by decide
  omega

/-- Joining a well-formed name yields a path that does not end in a
separator. -/
theorem sepEnds_pjoin {n : String} (p : String) (hn : wfName n = true) :
    sepEnds (pjoin p n) = false := by
  have hlast : (pjoin p n).data.getLast? = n.data.getLast? := by
    rw [pjoin]
    split
    · rw [String.data_append]
      exact List.getLast?_append_of_ne_nil _ (wfName_ne_empty hn)
    · rw [String.data_append]
      exact List.getLast?_append_of_ne_nil _ (wfName_ne_empty hn)
  rw [sepEnds, hlast]
  cases hg : n.data.getLast? with
  | none => rfl
  | some c =>
    have hc : c ∈ n.data := mem_of_getLast?_eq hg
    have : c ≠ '/' := fun he => wfName_no_sep hn (he ▸ hc)
    simpa using this

theorem pyDepth_pjoin {base cur n : String} (hc : sepEnds cur = false)
    (hn : wfName n = true) : pyDepth base (pjoin cur n) = pyDepth base cur + 1 := by
  rw [pyDepth, pyDepth, countSep_pjoin hc hn]
  push_cast
  ring

theorem pyDepth_self (p : String) : pyDepth p p = 0 := by
  rw [pyDepth]
  exact sub_self _

/-- A joined path is never the empty string. -/
theorem pjoin_ne_empty {n : String} (p : String) (hn : wfName n = true) :
    pjoin p n ≠ "" := by
  intro he
  have hd := String.ext_iff.mp he
  rw [pjoin] at hd
  have hn' := wfName_ne_empty hn
  split at hd <;>
  · rw [String.data_append] at hd
    have hlen := congrArg List.length hd
    simp only [List.length_append, List.length_nil] at hlen
    exact hn' (List.length_eq_zero.mp (by omega))

/-- Depth-indexed form of the uncapped descent pass of the fallback walker
(proof helper): the separator-count depth is replaced by a structural depth
counter. -/
def pyStructDirs (cfg : FilesConfig) : String → Int → Entries → List String
  | _, _, .nil => []
  | cur, d, .cons (.file _) rest => pyStructDirs cfg cur d rest
  | cur, d, .cons (.dir n r sub) rest =>
    (if pyKeepDir cfg n then
      if !r then []
      else if 0 < cfg.max_depth ∧ cfg.max_depth ≤ d + 1 then []
      else pyPureFiles cfg (pjoin cur n) sub ++ pyStructDirs cfg (pjoin cur n) (d + 1) sub
    else []) ++ pyStructDirs cfg cur d rest

/-- On well-formed listings rooted at a path without trailing separator, the
separator-count depth of the walker coincides with the structural depth. -/
theorem pyPureDirs_eq_struct (cfg : FilesConfig) (base : String) :
    ∀ (cur : String) (es : Entries), sepEnds cur = false → wfEntries es = true →
      pyPureDirs cfg base cur es = pyStructDirs cfg cur (pyDepth base cur) es
  | cur, .nil, _, _ => by
    simp only [pyPureDirs, pyStructDirs]
  | cur, .cons (.file n) rest, hc, hw => by
    rw [pyPureDirs, pyStructDirs]
    rw [wfEntries] at hw
    simp only [Bool.and_eq_true] at hw
    exact pyPureDirs_eq_struct cfg base cur rest hc hw.2
  | cur, .cons (.dir n r sub) rest, hc, hw => by
    rw [pyPureDirs, pyStructDirs]
    rw [wfEntries] at hw
    simp only [Bool.and_eq_true] at hw
    obtain ⟨⟨hwn, hw2⟩, hw3⟩ := hw
    rw [pyDepth_pjoin hc hwn]
    rw [pyPureDirs_eq_struct cfg base cur rest hc hw3]
    by_cases hk : pyKeepDir cfg n = true
    · rw [if_pos hk, if_pos hk]
      cases r with
      | false => rfl
      | true =>
        by_cases hg : 0 < cfg.max_depth ∧ cfg.max_depth ≤ pyDepth base cur + 1
        · rw [if_pos hg, if_pos hg]
        · rw [if_neg hg, if_neg hg]
          rw [pyPureDirs_eq_struct cfg base (pjoin cur n) sub (sepEnds_pjoin cur hwn) hw2]
          rw [pyDepth_pjoin hc hwn]
    · rw [if_neg hk, if_neg hk]

theorem joinAll_cons (p c : String) (cs : List String) :
    joinAll p (c :: cs) = joinAll (pjoin p c) cs := rfl

/-- Decomposition of the uncapped file pass: every produced path is the join
of the directory with an accepted file name. -/
theorem pyPureFiles_mem (cfg : FilesConfig) (cur : String) :
    ∀ (es : Entries) (q : String), q ∈ pyPureFiles cfg cur es →
      ∃ n, q = pjoin cur n ∧ pyAcceptFile cfg n = true
  | .nil, q, h => by simp [pyPureFiles] at h
  | .cons (.file n) rest, q, h => by
    rw [pyPureFiles] at h
    rcases List.mem_append.mp h with h1 | h2
    · by_cases ha : pyAcceptFile cfg n = true
      · rw [if_pos ha] at h1
        exact ⟨n, by simpa using h1, ha⟩
      · rw [if_neg ha] at h1
        simp at h1
    · exact pyPureFiles_mem cfg cur rest q h2
  | .cons (.dir _ _ _) rest, q, h => by
    rw [pyPureFiles] at h
    exact pyPureFiles_mem cfg cur rest q h

/-- Decomposition of the structural descent pass of the fallback walker:
every produced path is the join of a chain of kept directory names followed
by an accepted file name, and when a positive depth bound is set the number
of added components respects it. -/
theorem pyStructDirs_mem (cfg : FilesConfig) :
    ∀ (cur : String) (d : Int) (es : Entries) (q : String), q ∈ pyStructDirs cfg cur d es →
      ∃ ds n, q = joinAll cur (ds ++ [n]) ∧ ds ≠ [] ∧
        (∀ c ∈ ds, pyKeepDir cfg c = true) ∧ pyAcceptFile cfg n = true ∧
        (0 < cfg.max_depth → d + (ds.length : Int) + 1 ≤ cfg.max_depth)
  | cur, d, .nil, q, h => by simp [pyStructDirs] at h
  | cur, d, .cons (.file _) rest, q, h => by
    rw [pyStructDirs] at h
    exact pyStructDirs_mem cfg cur d rest q h
  | cur, d, .cons (.dir n r sub) rest, q, h => by
    rw [pyStructDirs] at h
    rcases List.mem_append.mp h with h1 | h2
    · by_cases hk : pyKeepDir cfg n = true
      · rw [if_pos hk] at h1
        cases r with
        | false => simp at h1
        | true =>
          simp only [Bool.not_true, Bool.false_eq_true, if_false] at h1
          by_cases hg : 0 < cfg.max_depth ∧ cfg.max_depth ≤ d + 1
          · rw [if_pos hg] at h1
            simp at h1
          · rw [if_neg hg] at h1
            rcases List.mem_append.mp h1 with hf | hd
            · obtain ⟨nf, hnf, haf⟩ := pyPureFiles_mem cfg (pjoin cur n) sub q hf
              refine ⟨[n], nf, ?_, by simp, ?_, haf, ?_⟩
              · rw [hnf]; rfl
              · intro c hc
                simp only [List.mem_singleton] at hc
                rw [hc]; exact hk
              · intro hpos
                simp only [List.length_singleton]
                push_cast
                omega
            · obtain ⟨ds, nf, hq, hne, hks, haf, hdep⟩ :=
                pyStructDirs_mem cfg (pjoin cur n) (d + 1) sub q hd
              refine ⟨n :: ds, nf, ?_, by simp, ?_, haf, ?_⟩
              · rw [hq, List.cons_append, joinAll_cons]
              · intro c hc
                rcases List.mem_cons.mp hc with hc1 | hc2
                · rw [hc1]; exact hk
                · exact hks c hc2
              · intro hpos
                have := hdep hpos
                simp only [List.length_cons]
                push_cast at this ⊢
                omega
      · rw [if_neg hk] at h1
        simp at h1
    · exact pyStructDirs_mem cfg cur d rest q h2

/-- Decomposition of the modelled fd file pass. -/
theorem fdFiles_mem (cfg : FilesConfig) (cur : String) :
    ∀ (es : Entries) (q : String), q ∈ fdFiles cfg cur es →
      ∃ n, q = pjoin cur n ∧ fdAcceptFile cfg n = true
  | .nil, q, h => by simp [fdFiles] at h
  | .cons (.file n) rest, q, h => by
    rw [fdFiles] at h
    rcases List.mem_append.mp h with h1 | h2
    · by_cases ha : fdAcceptFile cfg n = true
      · rw [if_pos ha] at h1
        exact ⟨n, by simpa using h1, ha⟩
      · rw [if_neg ha] at h1
        simp at h1
    · exact fdFiles_mem cfg cur rest q h2
  | .cons (.dir _ _ _) rest, q, h => by
    rw [fdFiles] at h
    exact fdFiles_mem cfg cur rest q h

/-- Decomposition of the modelled fd descent pass, with the depth bound. -/
theorem fdDirs_mem (cfg : FilesConfig) :
    ∀ (cur : String) (d : Int) (es : Entries) (q : String), q ∈ fdDirs cfg cur d es →
      ∃ ds n, q = joinAll cur (ds ++ [n]) ∧ ds ≠ [] ∧
        (∀ c ∈ ds, fdKeepDir cfg c = true) ∧ fdAcceptFile cfg n = true ∧
        (0 < cfg.max_depth → d + (ds.length : Int) + 1 ≤ cfg.max_depth)
  | cur, d, .nil, q, h => by simp [fdDirs] at h
  | cur, d, .cons (.file _) rest, q, h => by
    rw [fdDirs] at h
    exact fdDirs_mem cfg cur d rest q h
  | cur, d, .cons (.dir n r sub) rest, q, h => by
    rw [fdDirs] at h
    rcases List.mem_append.mp h with h1 | h2
    · by_cases hk : fdKeepDir cfg n = true
      · rw [if_pos hk] at h1
        cases r with
        | false => simp at h1
        | true =>
          simp only [Bool.not_true, Bool.false_eq_true, if_false] at h1
          by_cases hg : 0 < cfg.max_depth ∧ cfg.max_depth ≤ d + 1
          · rw [if_pos hg] at h1
            simp at h1
          · rw [if_neg hg] at h1
            rcases List.mem_append.mp h1 with hf | hd
            · obtain ⟨nf, hnf, haf⟩ := fdFiles_mem cfg (pjoin cur n) sub q hf
              refine ⟨[n], nf, ?_, by simp, ?_, haf, ?_⟩
              · rw [hnf]; rfl
              · intro c hc
                simp only [List.mem_singleton] at hc
                rw [hc]; exact hk
              · intro hpos
                simp only [List.length_singleton]
                push_cast
                omega
            · obtain ⟨ds, nf, hq, hne, hks, haf, hdep⟩ :=
                fdDirs_mem cfg (pjoin cur n) (d + 1) sub q hd
              refine ⟨n :: ds, nf, ?_, by simp, ?_, haf, ?_⟩
              · rw [hq, List.cons_append, joinAll_cons]
              · intro c hc
                rcases List.mem_cons.mp hc with hc1 | hc2
                · rw [hc1]; exact hk
                · exact hks c hc2
              · intro hpos
                have := hdep hpos
                simp only [List.length_cons]
                push_cast at this ⊢
                omega
      · rw [if_neg hk] at h1
        simp at h1
    · exact fdDirs_mem cfg cur d rest q h2

section Congruence

variable {cfg cfg' : FilesConfig}

theorem pyAcceptFile_congr (hi : cfg.include_extensions = cfg'.include_extensions)
    (n : String) : pyAcceptFile cfg n = pyAcceptFile cfg' n := by
  rw [pyAcceptFile, pyAcceptFile, hi]

theorem pyKeepDir_congr (he : cfg.exclude_patterns = cfg'.exclude_patterns)
    (n : String) : pyKeepDir cfg n = pyKeepDir cfg' n := by
  rw [pyKeepDir, pyKeepDir, he]

theorem pyCollect_congr (hf : cfg.max_files = cfg'.max_files)
    (hi : cfg.include_extensions = cfg'.include_extensions) (cur : String) :
    ∀ (es : Entries) (acc : List String), pyCollect cfg cur es acc = pyCollect cfg' cur es acc
  | .nil, acc => rfl
  | .cons (.file n) rest, acc => by
    rw [pyCollect, pyCollect, pyAcceptFile_congr hi, hf]
    simp only [pyCollect_congr hf hi cur rest]
  | .cons (.dir _ _ _) rest, acc => by
    rw [pyCollect, pyCollect, pyCollect_congr hf hi cur rest]

theorem pyDirs_congr (hf : cfg.max_files = cfg'.max_files)
    (hi : cfg.include_extensions = cfg'.include_extensions)
    (he : cfg.exclude_patterns = cfg'.exclude_patterns)
    (hg : ∀ x : Int, (0 < cfg.max_depth ∧ cfg.max_depth ≤ x) ↔
      (0 < cfg'.max_depth ∧ cfg'.max_depth ≤ x)) (base : String) :
    ∀ (cur : String) (es : Entries) (acc : List String),
      pyDirs cfg base cur es acc = pyDirs cfg' base cur es acc
  | _, .nil, acc => rfl
  | cur, .cons (.file _) rest, acc => by
    rw [pyDirs, pyDirs, pyDirs_congr hf hi he hg base cur rest]
  | cur, .cons (.dir n r sub) rest, acc => by
    rw [pyDirs, pyDirs, pyKeepDir_congr he,
      if_congr (hg (pyDepth base (pjoin cur n))) rfl rfl,
      pyCollect_congr hf hi (pjoin cur n) sub acc]
    simp only [pyDirs_congr hf hi he hg base (pjoin cur n) sub,
      pyDirs_congr hf hi he hg base cur rest]

theorem pyVisitRoot_congr (hf : cfg.max_files = cfg'.max_files)
    (hi : cfg.include_extensions = cfg'.include_extensions)
    (he : cfg.exclude_patterns = cfg'.exclude_patterns)
    (hg : ∀ x : Int, (0 < cfg.max_depth ∧ cfg.max_depth ≤ x) ↔
      (0 < cfg'.max_depth ∧ cfg'.max_depth ≤ x)) (p : String) (rd : RootDir)
    (acc : List String) : pyVisitRoot cfg p rd acc = pyVisitRoot cfg' p rd acc := by
  rw [pyVisitRoot, pyVisitRoot, if_congr (hg (pyDepth p p)) rfl rfl,
    pyCollect_congr hf hi p rd.entries acc]
  simp only [pyDirs_congr hf hi he hg p p rd.entries]

theorem scanPyGo_congr (hf : cfg.max_files = cfg'.max_files)
    (hi : cfg.include_extensions = cfg'.include_extensions)
    (he : cfg.exclude_patterns = cfg'.exclude_patterns)
    (hg : ∀ x : Int, (0 < cfg.max_depth ∧ cfg.max_depth ≤ x) ↔
      (0 < cfg'.max_depth ∧ cfg'.max_depth ≤ x)) (st : FSState) :
    ∀ (sps : List String) (acc : List String),
      scanPyGo cfg st sps acc = scanPyGo cfg' st sps acc
  | [], acc => rfl
  | sp :: rest, acc => by
    rw [scanPyGo, scanPyGo]
    cases st.lookup (st.expanduser sp) with
    | none => exact scanPyGo_congr hf hi he hg st rest acc
    | some rd =>
      dsimp only
      rw [pyVisitRoot_congr hf hi he hg]
      cases pyVisitRoot cfg' (st.expanduser sp) rd acc with
      | mk a b =>
        cases b with
        | true => rfl
        | false => exact scanPyGo_congr hf hi he hg st rest a

theorem fdAcceptFile_congr (hi : cfg.include_extensions = cfg'.include_extensions)
    (he : cfg.exclude_patterns = cfg'.exclude_patterns) (n : String) :
    fdAcceptFile cfg n = fdAcceptFile cfg' n := by
  rw [fdAcceptFile, fdAcceptFile, hi, he]

theorem fdKeepDir_congr (he : cfg.exclude_patterns = cfg'.exclude_patterns)
    (n : String) : fdKeepDir cfg n = fdKeepDir cfg' n := by
  rw [fdKeepDir, fdKeepDir, he]

theorem fdFiles_congr (hi : cfg.include_extensions = cfg'.include_extensions)
    (he : cfg.exclude_patterns = cfg'.exclude_patterns) (cur : String) :
    ∀ es : Entries, fdFiles cfg cur es = fdFiles cfg' cur es
  | .nil => rfl
  | .cons (.file n) rest => by
    rw [fdFiles, fdFiles, fdAcceptFile_congr hi he, fdFiles_congr hi he cur rest]
  | .cons (.dir _ _ _) rest => by
    rw [fdFiles, fdFiles, fdFiles_congr hi he cur rest]

theorem fdDirs_congr (hi : cfg.include_extensions = cfg'.include_extensions)
    (he : cfg.exclude_patterns = cfg'.exclude_patterns)
    (hg : ∀ x : Int, (0 < cfg.max_depth ∧ cfg.max_depth ≤ x) ↔
      (0 < cfg'.max_depth ∧ cfg'.max_depth ≤ x)) :
    ∀ (cur : String) (d : Int) (es : Entries), fdDirs cfg cur d es = fdDirs cfg' cur d es
  | _, _, .nil => rfl
  | cur, d, .cons (.file _) rest => by
    rw [fdDirs, fdDirs, fdDirs_congr hi he hg cur d rest]
  | cur, d, .cons (.dir n r sub) rest => by
    rw [fdDirs, fdDirs, fdKeepDir_congr he, if_congr (hg (d + 1)) rfl rfl,
      fdFiles_congr hi he (pjoin cur n) sub, fdDirs_congr hi he hg (pjoin cur n) (d + 1) sub,
      fdDirs_congr hi he hg cur d rest]

theorem fdRootLines_congr (hi : cfg.include_extensions = cfg'.include_extensions)
    (he : cfg.exclude_patterns = cfg'.exclude_patterns)
    (hg : ∀ x : Int, (0 < cfg.max_depth ∧ cfg.max_depth ≤ x) ↔
      (0 < cfg'.max_depth ∧ cfg'.max_depth ≤ x)) (p : String) (rd : RootDir) :
    fdRootLines cfg p rd = fdRootLines cfg' p rd := by
  rw [fdRootLines, fdRootLines, fdFiles_congr hi he p rd.entries,
    fdDirs_congr hi he hg p 0 rd.entries]

theorem scanFdGo_congr (hf : cfg.max_files = cfg'.max_files)
    (hi : cfg.include_extensions = cfg'.include_extensions)
    (he : cfg.exclude_patterns = cfg'.exclude_patterns)
    (hg : ∀ x : Int, (0 < cfg.max_depth ∧ cfg.max_depth ≤ x) ↔
      (0 < cfg'.max_depth ∧ cfg'.max_depth ≤ x)) (st : FSState) :
    ∀ (sps : List String) (acc : List String),
      scanFdGo cfg st sps acc = scanFdGo cfg' st sps acc
  | [], acc => rfl
  | sp :: rest, acc => by
    rw [scanFdGo, scanFdGo]
    cases st.lookup (st.expanduser sp) with
    | none => exact scanFdGo_congr hf hi he hg st rest acc
    | some rd =>
      dsimp only
      cases st.fdOutcome (st.expanduser sp) with
      | timeout => exact scanFdGo_congr hf hi he hg st rest acc
      | exitErr =>
        dsimp only
        rw [hf]
        split
        · rfl
        · exact scanFdGo_congr hf hi he hg st rest acc
      | ok =>
        dsimp only
        rw [hf, fdRootLines_congr hi he hg]
        simp only [scanFdGo_congr hf hi he hg st rest]

end Congruence

/-- Whether a configured root resolves to an existing directory for which the
fd invocation fails (times out or exits nonzero). -/
def fdRootFails (st : FSState) (sp : String) : Bool :=
  (st.lookup (st.expanduser sp)).isSome &&
    !(st.fdOutcome (st.expanduser sp) == FdOutcome.ok)

/-- Dropping the failing roots from the loop of `_scan_with_fd` does not
change its result, as long as the accumulated list is below the cap. -/
theorem scanFdGo_filter_failing (cfg : FilesConfig) (st : FSState) :
    ∀ (sps : List String) (acc : List String), (acc.length : Int) < cfg.max_files →
      scanFdGo cfg st sps acc =
        scanFdGo cfg st (sps.filter (fun sp => !fdRootFails st sp)) acc
  | [], acc, _ => rfl
  | sp :: rest, acc, h => by
    rw [List.filter_cons]
    cases hl : st.lookup (st.expanduser sp) with
    | none =>
      rw [if_pos (by simp [fdRootFails, hl])]
      rw [scanFdGo, scanFdGo, hl]
      dsimp only
      exact scanFdGo_filter_failing cfg st rest acc h
    | some rd =>
      cases ho : st.fdOutcome (st.expanduser sp) with
      | timeout =>
        rw [if_neg (by simp [fdRootFails, hl, ho])]
        rw [scanFdGo, hl, ho]
        dsimp only
        exact scanFdGo_filter_failing cfg st rest acc h
      | exitErr =>
        rw [if_neg (by simp [fdRootFails, hl, ho])]
        rw [scanFdGo, hl, ho]
        dsimp only
        rw [if_neg (not_le.mpr h)]
        exact scanFdGo_filter_failing cfg st rest acc h
      | ok =>
        rw [if_pos (by simp [fdRootFails, hl, ho])]
        rw [scanFdGo, scanFdGo, hl, ho]
        dsimp only
        split
        · rfl
        · next hc => exact scanFdGo_filter_failing cfg st rest _ (not_le.mp hc)

/-- Dropping the missing roots from the loop of `_scan_with_python` does not
change its result. -/
theorem scanPyGo_filter_missing (cfg : FilesConfig) (st : FSState) :
    ∀ (sps : List String) (acc : List String),
      scanPyGo cfg st sps acc =
        scanPyGo cfg st (sps.filter (fun sp => (st.lookup (st.expanduser sp)).isSome)) acc
  | [], acc => rfl
  | sp :: rest, acc => by
    rw [List.filter_cons]
    cases hl : st.lookup (st.expanduser sp) with
    | none =>
      rw [if_neg (by simp [hl])]
      rw [scanPyGo, hl]
      dsimp only
      exact scanPyGo_filter_missing cfg st rest acc
    | some rd =>
      rw [if_pos (by simp [hl])]
      rw [scanPyGo, scanPyGo, hl]
      dsimp only
      cases pyVisitRoot cfg (st.expanduser sp) rd acc with
      | mk a b =>
        cases b with
        | true => rfl
        | false => exact scanPyGo_filter_missing cfg st rest a

/-- Dropping the missing roots from the loop of `_scan_with_fd` does not
change its result. -/
theorem scanFdGo_filter_missing (cfg : FilesConfig) (st : FSState) :
    ∀ (sps : List String) (acc : List String),
      scanFdGo cfg st sps acc =
        scanFdGo cfg st (sps.filter (fun sp => (st.lookup (st.expanduser sp)).isSome)) acc
  | [], acc => rfl
  | sp :: rest, acc => by
    rw [List.filter_cons]
    cases hl : st.lookup (st.expanduser sp) with
    | none =>
      rw [if_neg (by simp [hl])]
      rw [scanFdGo, hl]
      dsimp only
      exact scanFdGo_filter_missing cfg st rest acc
    | some rd =>
      rw [if_pos (by simp [hl])]
      rw [scanFdGo, scanFdGo, hl]
      dsimp only
      cases st.fdOutcome (st.expanduser sp) with
      | timeout => exact scanFdGo_filter_missing cfg st rest acc
      | exitErr =>
        dsimp only
        split
        · rfl
        · exact scanFdGo_filter_missing cfg st rest acc
      | ok =>
        dsimp only
        split
        · rfl
        · exact scanFdGo_filter_missing cfg st rest _

/-- A subdirectory entry that is unreadable contributes nothing to the
fallback walker, and traversal continues with its siblings. -/
theorem pyDirs_unreadable (cfg : FilesConfig) (base cur n : String) (sub rest : Entries)
    (acc : List String) :
    pyDirs cfg base cur (.cons (.dir n false sub) rest) acc = pyDirs cfg base cur rest acc := by
  rw [pyDirs]
  split
  · rfl
  · rfl

/-- An unreadable root directory contributes nothing to the fallback walker,
without the early-return flag being raised. -/
theorem pyVisitRoot_unreadable (cfg : FilesConfig) (p : String) (es : Entries)
    (acc : List String) :
    pyVisitRoot cfg p { readable := false, entries := es } acc = (acc, false) := by
  rw [pyVisitRoot]
  rfl

theorem accept_parity (cfg : FilesConfig) (hx : cfg.include_extensions = []) {n : String}
    (hne : cfg.exclude_patterns.contains n = false) :
    pyAcceptFile cfg n = fdAcceptFile cfg n := by
  rw [pyAcceptFile, fdAcceptFile, hx, hne]
  simp

theorem keep_parity (cfg : FilesConfig) (n : String) : pyKeepDir cfg n = fdKeepDir cfg n := by
  rw [pyKeepDir, fdKeepDir]
  exact Bool.and_comm _ _

/-- With no extension filter and no file named after an exclude pattern, the
file passes of the two backends agree. -/
theorem files_parity (cfg : FilesConfig) (cur : String) (hx : cfg.include_extensions = []) :
    ∀ es : Entries, noExcludedFiles cfg es = true → pyPureFiles cfg cur es = fdFiles cfg cur es
  | .nil, _ => rfl
  | .cons (.file n) rest, h => by
    rw [noExcludedFiles] at h
    simp only [Bool.and_eq_true] at h
    have hne : cfg.exclude_patterns.contains n = false := by
      have := h.1
      simp only [Bool.not_eq_true'] at this
      exact this
    rw [pyPureFiles, fdFiles, accept_parity cfg hx hne, files_parity cfg cur hx rest h.2]
  | .cons (.dir _ _ sub) rest, h => by
    rw [noExcludedFiles] at h
    simp only [Bool.and_eq_true] at h
    rw [pyPureFiles, fdFiles, files_parity cfg cur hx rest h.2]

/-- With no extension filter and no file named after an exclude pattern, the
descent passes of the two backends agree at equal structural depth. -/
theorem dirs_parity (cfg : FilesConfig) (hx : cfg.include_extensions = []) :
    ∀ (cur : String) (d : Int) (es : Entries), noExcludedFiles cfg es = true →
      pyStructDirs cfg cur d es = fdDirs cfg cur d es
  | _, _, .nil, _ => rfl
  | cur, d, .cons (.file _) rest, h => by
    rw [noExcludedFiles] at h
    simp only [Bool.and_eq_true] at h
    rw [pyStructDirs, fdDirs, dirs_parity cfg hx cur d rest h.2]
  | cur, d, .cons (.dir n r sub) rest, h => by
    rw [noExcludedFiles] at h
    simp only [Bool.and_eq_true] at h
    rw [pyStructDirs, fdDirs, keep_parity cfg n,
      files_parity cfg (pjoin cur n) hx sub h.1,
      dirs_parity cfg hx (pjoin cur n) (d + 1) sub h.1,
      dirs_parity cfg hx cur d rest h.2]

/-- No output line of the modelled fd file pass is empty, on well-formed
listings. -/
theorem fdFiles_ne_empty (cfg : FilesConfig) (cur : String) :
    ∀ es : Entries, wfEntries es = true → ∀ q ∈ fdFiles cfg cur es, q ≠ ""
  | .nil, _, q, h => absurd h (by simp [fdFiles])
  | .cons (.file n) rest, hw, q, h => by
    rw [wfEntries] at hw
    simp only [Bool.and_eq_true] at hw
    rw [fdFiles] at h
    rcases List.mem_append.mp h with h1 | h2
    · split at h1
      · simp only [List.mem_singleton] at h1
        rw [h1]
        exact pjoin_ne_empty cur hw.1
      · simp at h1
    · exact fdFiles_ne_empty cfg cur rest hw.2 q h2
  | .cons (.dir _ _ sub) rest, hw, q, h => by
    rw [wfEntries] at hw
    simp only [Bool.and_eq_true] at hw
    rw [fdFiles] at h
    exact fdFiles_ne_empty cfg cur rest hw.2 q h

/-- No output line of the modelled fd descent pass is empty, on well-formed
listings. -/
theorem fdDirs_ne_empty (cfg : FilesConfig) :
    ∀ (cur : String) (d : Int) (es : Entries), wfEntries es = true →
      ∀ q ∈ fdDirs cfg cur d es, q ≠ ""
  | _, _, .nil, _, q, h => absurd h (by simp [fdDirs])
  | cur, d, .cons (.file _) rest, hw, q, h => by
    rw [wfEntries] at hw
    simp only [Bool.and_eq_true] at hw
    rw [fdDirs] at h
    exact fdDirs_ne_empty cfg cur d rest hw.2 q h
  | cur, d, .cons (.dir n r sub) rest, hw, q, h => by
    rw [wfEntries] at hw
    simp only [Bool.and_eq_true] at hw
    rw [fdDirs] at h
    rcases List.mem_append.mp h with h1 | h2
    · split at h1
      · split at h1
        · simp at h1
        · split at h1
          · simp at h1
          · rcases List.mem_append.mp h1 with hf | hd
            · exact fdFiles_ne_empty cfg (pjoin cur n) sub hw.1.2 q hf
            · exact fdDirs_ne_empty cfg (pjoin cur n) (d + 1) sub hw.1.2 q hd
      · simp at h1
    · exact fdDirs_ne_empty cfg cur d rest hw.2 q h2

/-- Parity of one root's contribution: on a well-formed root without trailing
separator, with no extension filter, no file named after an exclude pattern,
and a successful delegate run, the delegate contribution equals the fallback
walker contribution. -/
theorem rootContribution_parity (cfg : FilesConfig) (st : FSState) (sp : String)
    (hx : cfg.include_extensions = [])
    (hsep : sepEnds (st.expanduser sp) = false)
    (hwf : ∀ rd, st.lookup (st.expanduser sp) = some rd →
      wfEntries rd.entries = true ∧ noExcludedFiles cfg rd.entries = true)
    (hok : ∀ rd, st.lookup (st.expanduser sp) = some rd →
      st.fdOutcome (st.expanduser sp) = FdOutcome.ok) :
    fdRootContribution cfg st sp = pyRootFiles cfg st sp := by
  rw [fdRootContribution, pyRootFiles]
  cases hl : st.lookup (st.expanduser sp) with
  | none => rfl
  | some rd =>
    dsimp only
    rw [hok rd hl]
    obtain ⟨hwfe, hnx⟩ := hwf rd hl
    rw [fdRootLines, pyVisitPure]
    cases hr : rd.readable with
    | false => rfl
    | true =>
      simp only [Bool.not_true, Bool.false_eq_true, if_false]
      rw [if_neg (by rw [pyDepth_self]; rintro ⟨h1, h2⟩; omega)]
      rw [pyPureDirs_eq_struct cfg (st.expanduser sp) (st.expanduser sp) rd.entries hsep hwfe,
        pyDepth_self, dirs_parity cfg hx (st.expanduser sp) 0 rd.entries hnx,
        files_parity cfg (st.expanduser sp) hx rd.entries hnx]
      apply List.filter_eq_self.mpr
      intro q hq
      rcases List.mem_append.mp hq with h1 | h2
      · exact bne_iff_ne.mpr (fdFiles_ne_empty cfg (st.expanduser sp) rd.entries hwfe q h1)
      · exact bne_iff_ne.mpr (fdDirs_ne_empty cfg (st.expanduser sp) 0 rd.entries hwfe q h2)

theorem flatMap_congr_mem {f g : String → List String} :
    ∀ l : List String, (∀ x ∈ l, f x = g x) → l.flatMap f = l.flatMap g
  | [], _ => rfl
  | x :: rest, h => by
    rw [List.flatMap_cons, List.flatMap_cons, h x (List.mem_cons_self x rest),
      flatMap_congr_mem rest (fun y hy => h y (List.mem_cons_of_mem x hy))]

/-- The nested single-chain fixture: `k` nested directories named d holding
one file named f at the bottom. -/
def chainEntry : Nat → Entry
  | 0 => .file "f"
  | k + 1 => .dir "d" true (.cons (chainEntry k) .nil)

def chainEs (k : Nat) : Entries := .cons (chainEntry k) .nil

/-- The fallback walker returns exactly the one deep file of the chain
fixture whenever the depth bound admits it. -/
theorem chain_visit (cfg : FilesConfig) (hx : cfg.include_extensions = [])
    (he : cfg.exclude_patterns = []) (base : String) :
    ∀ (k : Nat) (cur : String), sepEnds cur = false →
      (0 < cfg.max_depth → pyDepth base cur + (k : Int) < cfg.max_depth) →
      pyPureFiles cfg cur (chainEs k) ++ pyPureDirs cfg base cur (chainEs k)
        = [joinAll cur (List.replicate k "d" ++ ["f"])]
  | 0, cur, _, _ => by
    have hacc : pyAcceptFile cfg "f" = true := by
      rw [pyAcceptFile, hx]
      decide
    rw [chainEs, chainEntry, pyPureFiles, pyPureFiles, pyPureDirs, pyPureDirs,
      if_pos hacc]
    rfl
  | k + 1, cur, hsep, hdep => by
    have hkeep : pyKeepDir cfg "d" = true := by
      rw [pyKeepDir, he]
      decide
    have hwd : wfName "d" = true := by decide
    have hguard : ¬(0 < cfg.max_depth ∧ cfg.max_depth ≤ pyDepth base (pjoin cur "d")) := by
      rintro ⟨h1, h2⟩
      rw [pyDepth_pjoin hsep hwd] at h2
      have := hdep h1
      push_cast at this
      omega
    rw [chainEs, chainEntry, pyPureFiles, pyPureFiles, pyPureDirs, pyPureDirs,
      if_pos hkeep]
    simp only [Bool.not_true, Bool.false_eq_true, if_false]
    rw [if_neg hguard]
    have hrec := chain_visit cfg hx he base k (pjoin cur "d") (sepEnds_pjoin cur hwd)
      (by
        intro h1
        rw [pyDepth_pjoin hsep hwd]
        have := hdep h1
        push_cast at this ⊢
        omega)
    rw [chainEs] at hrec
    simp only [List.append_nil, List.nil_append]
    rw [hrec]
    rw [List.replicate_succ, List.cons_append, joinAll_cons]

theorem contains_eq_true_iff_mem {l : List String} {a : String} :
    l.contains a = true ↔ a ∈ l := by
  simp

/-- Decomposition of the uncapped descent pass of the fallback walker: every
produced path is the join of a chain of kept directory names followed by an
accepted file name. -/
theorem pyPureDirs_mem (cfg : FilesConfig) (base : String) :
    ∀ (cur : String) (es : Entries) (q : String), q ∈ pyPureDirs cfg base cur es →
      ∃ ds n, q = joinAll cur (ds ++ [n]) ∧ ds ≠ [] ∧
        (∀ c ∈ ds, pyKeepDir cfg c = true) ∧ pyAcceptFile cfg n = true
  | cur, .nil, q, h => by simp [pyPureDirs] at h
  | cur, .cons (.file _) rest, q, h => by
    rw [pyPureDirs] at h
    exact pyPureDirs_mem cfg base cur rest q h
  | cur, .cons (.dir n r sub) rest, q, h => by
    rw [pyPureDirs] at h
    rcases List.mem_append.mp h with h1 | h2
    · by_cases hk : pyKeepDir cfg n = true
      · rw [if_pos hk] at h1
        cases r with
        | false => simp at h1
        | true =>
          simp only [Bool.not_true, Bool.false_eq_true, if_false] at h1
          by_cases hg : 0 < cfg.max_depth ∧ cfg.max_depth ≤ pyDepth base (pjoin cur n)
          · rw [if_pos hg] at h1
            simp at h1
          · rw [if_neg hg] at h1
            rcases List.mem_append.mp h1 with hf | hd
            · obtain ⟨nf, hnf, haf⟩ := pyPureFiles_mem cfg (pjoin cur n) sub q hf
              refine ⟨[n], nf, ?_, by simp, ?_, haf⟩
              · rw [hnf]; rfl
              · intro c hc
                simp only [List.mem_singleton] at hc
                rw [hc]; exact hk
            · obtain ⟨ds, nf, hq, hne, hks, haf⟩ :=
                pyPureDirs_mem cfg base (pjoin cur n) sub q hd
              refine ⟨n :: ds, nf, ?_, by simp, ?_, haf⟩
              · rw [hq, List.cons_append, joinAll_cons]
              · intro c hc
                rcases List.mem_cons.mp hc with hc1 | hc2
                · rw [hc1]; exact hk
                · exact hks c hc2
      · rw [if_neg hk] at h1
        simp at h1
    · exact pyPureDirs_mem cfg base cur rest q h2

/-- Fixture for C1: one root listed twice, holding one file and one nested
file. -/
def c1Cfg : FilesConfig :=
  { scan_paths := ["/r", "/r"]
    max_depth := 5
    include_extensions := []
    exclude_patterns := []
    max_files := 10 }

def c1St : FSState :=
  { expanduser := fun s => s
    lookup := fun s =>
      if s = "/r" then
        some { readable := true, entries := .cons (.file "a.txt") .nil }
      else none
    fdOutcome := fun _ => .ok }

/-- C1 counterexample: with the same root listed twice, both backends return
the same absolute path twice — the scan result is not duplicate-free, so the
claimed deduplication (first occurrence kept) does not happen. -/
theorem c1_counterexample :
    scanPython c1Cfg c1St = ["/r/a.txt", "/r/a.txt"] ∧
    scanFd c1Cfg c1St = ["/r/a.txt", "/r/a.txt"] ∧
    ¬(scanPython c1Cfg c1St).Nodup ∧ ¬(scanFd c1Cfg c1St).Nodup := by
  refine ⟨by decide, by decide, ?_, ?_⟩
  · intro h
    rw [show scanPython c1Cfg c1St = ["/r/a.txt", "/r/a.txt"] from by decide] at h
    simp at h
  · intro h
    rw [show scanFd c1Cfg c1St = ["/r/a.txt", "/r/a.txt"] from by decide] at h
    simp at h

/-- C1 (amended): for a positive cap, the final scan result of either backend
is exactly the concatenation of the per-root uncapped results in root order,
truncated to `max_files`; no deduplication is performed, so a path reachable
from several configured roots appears once per root (subject to the cap). -/
theorem c1_concat_truncation (cfg : FilesConfig) (st : FSState) (hpos : 0 < cfg.max_files) :
    scanPython cfg st = (pyAll cfg st).take cfg.max_files.toNat ∧
    scanFd cfg st = (fdAll cfg st).take cfg.max_files.toNat :=
  ⟨scanPython_char cfg st hpos, scanFd_char cfg st hpos⟩

theorem c1_witness :
    scanPython c1Cfg c1St = (pyAll c1Cfg c1St).take c1Cfg.max_files.toNat ∧
    scanFd c1Cfg c1St = (fdAll c1Cfg c1St).take c1Cfg.max_files.toNat :=
  c1_concat_truncation c1Cfg c1St (by decide)

/-- C2: loading any stored (non-None) configuration record raises
AttributeError while evaluating the default argument
`FilesConfig.scan_paths`, because dataclass processing deletes the class
attribute of every field declared with a `default_factory`; the construction
never succeeds, no `ConfigInvalid` is involved, and absent fields never reach
their documented defaults. -/
theorem c2_load_config_raises (d : ConfigRecord) :
    load_config (some d) = Except.error (PyError.attributeError "scan_paths") := rfl

/-- Fixture for C3: an exclusion pattern that is also the name of a regular
file. -/
def c3Cfg : FilesConfig :=
  { scan_paths := ["/r"]
    max_depth := -1
    include_extensions := []
    exclude_patterns := ["build"]
    max_files := 10 }

def c3St : FSState :=
  { expanduser := fun s => s
    lookup := fun s =>
      if s = "/r" then
        some { readable := true, entries := .cons (.file "build") .nil }
      else none
    fdOutcome := fun _ => .ok }

/-- C3 counterexample: the fallback walker returns a path whose only
path-component relative to its root is exactly the exclusion pattern — a
regular file named like a pattern is not excluded by `_scan_with_python`. -/
theorem c3_counterexample :
    "build" ∈ c3Cfg.exclude_patterns ∧
    scanPython c3Cfg c3St = ["/r/build"] ∧
    "/r/build" = joinAll "/r" ["build"] := by
  refine ⟨by decide, by decide, by decide⟩

/-- C3 (amended): in both backends a directory whose name matches an
exclusion pattern prunes its whole subtree, so no result path has an ancestor
directory component (relative to its root) that is excluded or hidden; the
delegate additionally excludes a regular file whose own name matches a
pattern, but the fallback walker only skips hidden file names. -/
theorem c3_exclusion_amended (cfg : FilesConfig) (st : FSState) (q : String) :
    (q ∈ scanPython cfg st →
      ∃ sp ∈ cfg.scan_paths, ∃ ds n, q = joinAll (st.expanduser sp) (ds ++ [n]) ∧
        (∀ c ∈ ds, c ∉ cfg.exclude_patterns ∧ hiddenName c = false) ∧
        hiddenName n = false) ∧
    (q ∈ scanFd cfg st →
      ∃ sp ∈ cfg.scan_paths, ∃ ds n, q = joinAll (st.expanduser sp) (ds ++ [n]) ∧
        (∀ c ∈ ds, c ∉ cfg.exclude_patterns ∧ hiddenName c = false) ∧
        n ∉ cfg.exclude_patterns ∧ hiddenName n = false) := by
  have hkeep : ∀ c : String, pyKeepDir cfg c = true →
      c ∉ cfg.exclude_patterns ∧ hiddenName c = false := by
    intro c hc
    rw [pyKeepDir, Bool.and_eq_true, Bool.not_eq_true', Bool.not_eq_true'] at hc
    exact ⟨fun hm => by rw [contains_eq_true_iff_mem.mpr hm] at hc; exact absurd hc.1 (by simp),
      hc.2⟩
  have hfkeep : ∀ c : String, fdKeepDir cfg c = true →
      c ∉ cfg.exclude_patterns ∧ hiddenName c = false := by
    intro c hc
    rw [fdKeepDir, Bool.and_eq_true, Bool.not_eq_true', Bool.not_eq_true'] at hc
    exact ⟨fun hm => by rw [contains_eq_true_iff_mem.mpr hm] at hc; exact absurd hc.2 (by simp),
      hc.1⟩
  have hacc : ∀ n : String, pyAcceptFile cfg n = true → hiddenName n = false := by
    intro n hn
    rw [pyAcceptFile, Bool.and_eq_true, Bool.not_eq_true'] at hn
    exact hn.1
  have hfacc : ∀ n : String, fdAcceptFile cfg n = true →
      n ∉ cfg.exclude_patterns ∧ hiddenName n = false := by
    intro n hn
    rw [fdAcceptFile, Bool.and_eq_true, Bool.and_eq_true, Bool.not_eq_true',
      Bool.not_eq_true'] at hn
    exact ⟨fun hm => by
      rw [contains_eq_true_iff_mem.mpr hm] at hn
      exact absurd hn.1.2 (by simp), hn.1.1⟩
  constructor
  · intro h
    obtain ⟨sp, hsp, hq⟩ := List.mem_flatMap.mp (scanPython_subset cfg st q h)
    refine ⟨sp, hsp, ?_⟩
    rw [pyRootFiles] at hq
    cases hl : st.lookup (st.expanduser sp) with
    | none => rw [hl] at hq; simp at hq
    | some rd =>
      rw [hl] at hq
      simp only at hq
      rw [pyVisitPure] at hq
      split at hq
      · simp at hq
      · split at hq
        · simp at hq
        · rcases List.mem_append.mp hq with hf | hd
          · obtain ⟨n, hn, han⟩ := pyPureFiles_mem cfg (st.expanduser sp) rd.entries q hf
            exact ⟨[], n, by rw [hn]; rfl, by simp, hacc n han⟩
          · obtain ⟨ds, n, hjq, _, hks, han⟩ :=
              pyPureDirs_mem cfg (st.expanduser sp) (st.expanduser sp) rd.entries q hd
            exact ⟨ds, n, hjq, fun c hc => hkeep c (hks c hc), hacc n han⟩
  · intro h
    obtain ⟨sp, hsp, hq⟩ := List.mem_flatMap.mp (scanFd_subset cfg st q h)
    refine ⟨sp, hsp, ?_⟩
    rw [fdRootContribution] at hq
    cases hl : st.lookup (st.expanduser sp) with
    | none => rw [hl] at hq; simp at hq
    | some rd =>
      rw [hl] at hq
      simp only at hq
      cases ho : st.fdOutcome (st.expanduser sp) with
      | timeout => rw [ho] at hq; simp at hq
      | exitErr => rw [ho] at hq; simp at hq
      | ok =>
        rw [ho] at hq
        simp only at hq
        have hq2 := (List.mem_filter.mp hq).1
        rw [fdRootLines] at hq2
        split at hq2
        · simp at hq2
        · rcases List.mem_append.mp hq2 with hf | hd
          · obtain ⟨n, hn, han⟩ := fdFiles_mem cfg (st.expanduser sp) rd.entries q hf
            exact ⟨[], n, by rw [hn]; rfl, by simp, hfacc n han⟩
          · obtain ⟨ds, n, hjq, _, hks, han, _⟩ :=
              fdDirs_mem cfg (st.expanduser sp) 0 rd.entries q hd
            exact ⟨ds, n, hjq, fun c hc => hfkeep c (hks c hc), hfacc n han⟩

/-- Fixture for the C3 witness: an excluded directory next to a plain file. -/
def c3wCfg : FilesConfig :=
  { scan_paths := ["/r"]
    max_depth := 5
    include_extensions := []
    exclude_patterns := ["skip"]
    max_files := 10 }

def c3wSt : FSState :=
  { expanduser := fun s => s
    lookup := fun s =>
      if s = "/r" then
        some { readable := true
               entries := .cons (.file "a.txt")
                 (.cons (.dir "skip" true (.cons (.file "b.txt") .nil)) .nil) }
      else none
    fdOutcome := fun _ => .ok }

theorem c3_witness :
    ∃ sp ∈ c3wCfg.scan_paths, ∃ ds n,
      "/r/a.txt" = joinAll (c3wSt.expanduser sp) (ds ++ [n]) ∧
      (∀ c ∈ ds, c ∉ c3wCfg.exclude_patterns ∧ hiddenName c = false) ∧
      hiddenName n = false :=
  (c3_exclusion_amended c3wCfg c3wSt "/r/a.txt").1 (by decide)

/-- C4: for a positive cap the result length of either backend never exceeds
`max_files`, and once the cap is reached the scan stops early, returning
exactly the accumulated prefix truncated to the cap. -/
theorem c4_cap_invariant (cfg : FilesConfig) (st : FSState) (hpos : 0 < cfg.max_files) :
    ((scanPython cfg st).length : Int) ≤ cfg.max_files ∧
    ((scanFd cfg st).length : Int) ≤ cfg.max_files ∧
    scanPython cfg st = (pyAll cfg st).take cfg.max_files.toNat ∧
    scanFd cfg st = (fdAll cfg st).take cfg.max_files.toNat := by
  have h1 := scanPython_char cfg st hpos
  have h2 := scanFd_char cfg st hpos
  have htn : (cfg.max_files.toNat : Int) = cfg.max_files :=
    Int.toNat_of_nonneg (le_of_lt hpos)
  refine ⟨?_, ?_, h1, h2⟩
  · rw [h1]
    have := List.length_take cfg.max_files.toNat (pyAll cfg st)
    omega
  · rw [h2]
    have := List.length_take cfg.max_files.toNat (fdAll cfg st)
    omega

/-- Fixture for the C4 witness. -/
def c4Cfg : FilesConfig :=
  { scan_paths := ["/r"]
    max_depth := 5
    include_extensions := []
    exclude_patterns := []
    max_files := 2 }

def c4St : FSState :=
  { expanduser := fun s => s
    lookup := fun s =>
      if s = "/r" then
        some { readable := true
               entries := .cons (.file "a.txt")
                 (.cons (.file "b.txt") (.cons (.file "c.txt") .nil)) }
      else none
    fdOutcome := fun _ => .ok }

theorem c4_witness :
    ((scanPython c4Cfg c4St).length : Int) ≤ c4Cfg.max_files ∧
    ((scanFd c4Cfg c4St).length : Int) ≤ c4Cfg.max_files ∧
    scanPython c4Cfg c4St = (pyAll c4Cfg c4St).take c4Cfg.max_files.toNat ∧
    scanFd c4Cfg c4St = (fdAll c4Cfg c4St).take c4Cfg.max_files.toNat :=
  c4_cap_invariant c4Cfg c4St (by decide)

/-- C5: with exactly two configured roots and a positive cap, either backend
returns the first root's eligible files in full order before any of the
second root's, truncated at the cap — earlier roots take priority. -/
theorem c5_two_root_priority (cfg : FilesConfig) (st : FSState) (r1 r2 : String)
    (hroots : cfg.scan_paths = [r1, r2]) (hpos : 0 < cfg.max_files) :
    scanPython cfg st =
      (pyRootFiles cfg st r1 ++ pyRootFiles cfg st r2).take cfg.max_files.toNat ∧
    scanFd cfg st =
      (fdRootContribution cfg st r1 ++ fdRootContribution cfg st r2).take
        cfg.max_files.toNat := by
  constructor
  · rw [scanPython_char cfg st hpos, pyAll, hroots]
    simp [List.flatMap_cons, List.flatMap_nil]
  · rw [scanFd_char cfg st hpos, fdAll, hroots]
    simp [List.flatMap_cons, List.flatMap_nil]

/-- Fixture for the C5 witness: cap 3 across two roots with 2 files each. -/
def c5Cfg : FilesConfig :=
  { scan_paths := ["/a", "/b"]
    max_depth := 5
    include_extensions := []
    exclude_patterns := []
    max_files := 3 }

def c5St : FSState :=
  { expanduser := fun s => s
    lookup := fun s =>
      if s = "/a" then
        some { readable := true
               entries := .cons (.file "f1.txt") (.cons (.file "f2.txt") .nil) }
      else if s = "/b" then
        some { readable := true
               entries := .cons (.file "g1.txt") (.cons (.file "g2.txt") .nil) }
      else none
    fdOutcome := fun _ => .ok }

theorem c5_witness :
    scanPython c5Cfg c5St =
      (pyRootFiles c5Cfg c5St "/a" ++ pyRootFiles c5Cfg c5St "/b").take
        c5Cfg.max_files.toNat ∧
    scanFd c5Cfg c5St =
      (fdRootContribution c5Cfg c5St "/a" ++ fdRootContribution c5Cfg c5St "/b").take
        c5Cfg.max_files.toNat :=
  c5_two_root_priority c5Cfg c5St "/a" "/b" rfl (by decide)

/-- Fixture for C6: the filesystem root as scan root, depth bound 1, and a
file two levels below. -/
def c6Cfg : FilesConfig :=
  { scan_paths := ["/"]
    max_depth := 1
    include_extensions := []
    exclude_patterns := []
    max_files := 10 }

def c6St : FSState :=
  { expanduser := fun s => s
    lookup := fun s =>
      if s = "/" then
        some { readable := true
               entries := .cons (.dir "x" true (.cons (.file "f.txt") .nil)) .nil }
      else none
    fdOutcome := fun _ => .ok }

/-- C6 counterexample: scanning the root directory with maxDepth 1, the
fallback walker returns a file that lies two directory levels below its root
(its relative decomposition into well-formed components has length 2 and none
of length at most 1 exists), because the separator-count depth of a root
ending in the separator is one too small. -/
theorem c6_counterexample :
    c6Cfg.max_depth = 1 ∧
    scanPython c6Cfg c6St = ["/x/f.txt"] ∧
    (∃ comps : List String, (∀ c ∈ comps, wfName c = true) ∧
      "/x/f.txt" = joinAll "/" comps ∧ comps.length = 2) ∧
    ¬(∃ comps : List String, (∀ c ∈ comps, wfName c = true) ∧
      "/x/f.txt" = joinAll "/" comps ∧ comps.length ≤ 1) := by
  refine ⟨rfl, by decide, ⟨["x", "f.txt"], by decide, by decide, rfl⟩, ?_⟩
  rintro ⟨comps, hwf, heq, hlen⟩
  cases comps with
  | nil => exact absurd heq (by decide)
  | cons c rest =>
    cases rest with
    | cons c2 rest2 => simp at hlen
    | nil =>
      have hj : joinAll "/" [c] = "/" ++ c := by
        show pjoin "/" c = "/" ++ c
        rw [pjoin, if_pos (by decide)]
      rw [hj] at heq
      have hwc := hwf c (by simp)
      rw [wfName, decide_eq_true_eq] at hwc
      have hcnt := congrArg countSep heq
      rw [countSep, countSep, String.data_append, List.count_append] at hcnt
      have hzero : List.count '/' c.data = 0 := List.count_eq_zero.mpr hwc.2
      rw [hzero] at hcnt
      have h1 : List.count '/' ("/x/f.txt" : String).data = 2 := by decide
      have h2 : List.count '/' ("/" : String).data = 1 := by decide
      omega

/-- Chain fixture configuration for depth-exactness: depth bound N and a
single file at depth exactly N below the root. -/
def chainCfg (N : Nat) : FilesConfig :=
  { scan_paths := ["/r"]
    max_depth := (N : Int)
    include_extensions := []
    exclude_patterns := []
    max_files := 10000 }

def chainSt (N : Nat) : FSState :=
  { expanduser := fun s => s
    lookup := fun s =>
      if s = "/r" then some { readable := true, entries := chainEs (N - 1) } else none
    fdOutcome := fun _ => .ok }

/-- The chain fixture scan returns exactly its one file at depth N. -/
theorem chain_scan (N : Nat) (hN : 0 < N) :
    scanPython (chainCfg N) (chainSt N) =
      [joinAll "/r" (List.replicate (N - 1) "d" ++ ["f"])] := by
  rw [scanPython_char (chainCfg N) (chainSt N)
    (show (0 : Int) < (chainCfg N).max_files from
      (by decide : (0 : Int) < 10000))]
  have hroot : pyAll (chainCfg N) (chainSt N) =
      [joinAll "/r" (List.replicate (N - 1) "d" ++ ["f"])] := by
    rw [pyAll]
    show ((pyRootFiles (chainCfg N) (chainSt N) "/r") ++ []) = _
    rw [List.append_nil, pyRootFiles]
    show (match (chainSt N).lookup "/r" with
      | none => []
      | some rd => pyVisitPure (chainCfg N) "/r" rd) = _
    rw [show (chainSt N).lookup "/r" =
      some { readable := true, entries := chainEs (N - 1) } from rfl]
    dsimp only
    rw [pyVisitPure]
    simp only [Bool.not_true, Bool.false_eq_true, if_false]
    rw [if_neg (by
      rw [pyDepth_self]
      rintro ⟨h1, h2⟩
      omega)]
    exact chain_visit (chainCfg N) rfl rfl "/r" (N - 1) "/r" (by decide) (by
      intro h1
      rw [pyDepth_self]
      show (0 : Int) + ((N - 1 : Nat) : Int) < (N : Int)
      omega)
  rw [hroot]
  refine List.take_of_length_le ?_
  show 1 ≤ (10000 : Int).toNat
  decide

/-- Depth plays no role in either backend once the bound is nonpositive. -/
theorem scan_depth_irrelevant (cfg : FilesConfig) (st : FSState) (d' : Int)
    (hd : cfg.max_depth ≤ 0) (hd' : d' ≤ 0) :
    scanPython cfg st = scanPython { cfg with max_depth := d' } st ∧
    scanFd cfg st = scanFd { cfg with max_depth := d' } st := by
  have hg : ∀ x : Int, (0 < cfg.max_depth ∧ cfg.max_depth ≤ x) ↔ (0 < d' ∧ d' ≤ x) := by
    intro x
    constructor
    · rintro ⟨h1, _⟩; omega
    · rintro ⟨h1, _⟩; omega
  constructor
  · rw [scanPython, scanPython]
    exact @scanPyGo_congr cfg { cfg with max_depth := d' } rfl rfl rfl hg st
      cfg.scan_paths []
  · rw [scanFd, scanFd]
    exact @scanFdGo_congr cfg { cfg with max_depth := d' } rfl rfl rfl hg st
      cfg.scan_paths []

/-- C6 (amended): with a positive depth bound, on well-formed filesystem
states whose resolved roots do not end in the path separator, no result path
of either backend lies more than `max_depth` directory levels below its
originating root; a file at depth exactly N is still returned (chain
fixture); and a nonpositive bound means depth is ignored entirely.  The
restriction on roots is forced: for the root "/" the walker's
separator-count depth is one too small. -/
theorem c6_depth_amended :
    (∀ (cfg : FilesConfig) (st : FSState), 0 < cfg.max_depth →
      (∀ sp ∈ cfg.scan_paths, sepEnds (st.expanduser sp) = false ∧
        ((st.lookup (st.expanduser sp)).all fun rd => wfEntries rd.entries) = true) →
      (∀ q ∈ scanPython cfg st, ∃ sp ∈ cfg.scan_paths, ∃ comps : List String,
        q = joinAll (st.expanduser sp) comps ∧ comps ≠ [] ∧
        (comps.length : Int) ≤ cfg.max_depth) ∧
      (∀ q ∈ scanFd cfg st, ∃ sp ∈ cfg.scan_paths, ∃ comps : List String,
        q = joinAll (st.expanduser sp) comps ∧ comps ≠ [] ∧
        (comps.length : Int) ≤ cfg.max_depth)) ∧
    (∀ N : Nat, 0 < N →
      scanPython (chainCfg N) (chainSt N) =
        [joinAll "/r" (List.replicate (N - 1) "d" ++ ["f"])] ∧
      (List.replicate (N - 1) "d" ++ ["f"]).length = N) ∧
    (∀ (cfg : FilesConfig) (st : FSState) (d' : Int), cfg.max_depth ≤ 0 → d' ≤ 0 →
      scanPython cfg st = scanPython { cfg with max_depth := d' } st ∧
      scanFd cfg st = scanFd { cfg with max_depth := d' } st) := by
  refine ⟨?_, ?_, scan_depth_irrelevant⟩
  · intro cfg st hpos hroots
    constructor
    · intro q h
      obtain ⟨sp, hsp, hq⟩ := List.mem_flatMap.mp (scanPython_subset cfg st q h)
      obtain ⟨hsep, hall⟩ := hroots sp hsp
      refine ⟨sp, hsp, ?_⟩
      rw [pyRootFiles] at hq
      cases hl : st.lookup (st.expanduser sp) with
      | none => rw [hl] at hq; simp at hq
      | some rd =>
        rw [hl] at hq
        rw [hl] at hall
        simp only [Option.all] at hall
        simp only at hq
        rw [pyVisitPure] at hq
        split at hq
        · simp at hq
        · split at hq
          · simp at hq
          · rcases List.mem_append.mp hq with hf | hd
            · obtain ⟨n, hn, _⟩ := pyPureFiles_mem cfg (st.expanduser sp) rd.entries q hf
              exact ⟨[n], by rw [hn]; rfl, by simp, by
                simp only [List.length_singleton]
                push_cast
                omega⟩
            · rw [pyPureDirs_eq_struct cfg (st.expanduser sp) (st.expanduser sp)
                rd.entries hsep hall, pyDepth_self] at hd
              obtain ⟨ds, n, hjq, _, _, _, hdep⟩ :=
                pyStructDirs_mem cfg (st.expanduser sp) 0 rd.entries q hd
              refine ⟨ds ++ [n], hjq, by simp, ?_⟩
              have := hdep hpos
              simp only [List.length_append, List.length_singleton]
              push_cast at this ⊢
              omega
    · intro q h
      obtain ⟨sp, hsp, hq⟩ := List.mem_flatMap.mp (scanFd_subset cfg st q h)
      refine ⟨sp, hsp, ?_⟩
      rw [fdRootContribution] at hq
      cases hl : st.lookup (st.expanduser sp) with
      | none => rw [hl] at hq; simp at hq
      | some rd =>
        rw [hl] at hq
        simp only at hq
        cases ho : st.fdOutcome (st.expanduser sp) with
        | timeout => rw [ho] at hq; simp at hq
        | exitErr => rw [ho] at hq; simp at hq
        | ok =>
          rw [ho] at hq
          simp only at hq
          have hq2 := (List.mem_filter.mp hq).1
          rw [fdRootLines] at hq2
          split at hq2
          · simp at hq2
          · rcases List.mem_append.mp hq2 with hf | hd
            · obtain ⟨n, hn, _⟩ := fdFiles_mem cfg (st.expanduser sp) rd.entries q hf
              exact ⟨[n], by rw [hn]; rfl, by simp, by
                simp only [List.length_singleton]
                push_cast
                omega⟩
            · obtain ⟨ds, n, hjq, _, _, _, hdep⟩ :=
                fdDirs_mem cfg (st.expanduser sp) 0 rd.entries q hd
              refine ⟨ds ++ [n], hjq, by simp, ?_⟩
              have := hdep hpos
              simp only [List.length_append, List.length_singleton]
              push_cast at this ⊢
              omega
  · intro N hN
    refine ⟨chain_scan N hN, ?_⟩
    simp only [List.length_append, List.length_replicate, List.length_singleton]
    omega

theorem c6_witness :
    (∃ sp ∈ c4Cfg.scan_paths, ∃ comps : List String,
      "/r/a.txt" = joinAll (c4St.expanduser sp) comps ∧ comps ≠ [] ∧
      (comps.length : Int) ≤ c4Cfg.max_depth) ∧
    scanPython (chainCfg 3) (chainSt 3) =
      [joinAll "/r" (List.replicate 2 "d" ++ ["f"])] := by
  constructor
  · exact (c6_depth_amended.1 c4Cfg c4St (by decide) (by decide)).1 "/r/a.txt" (by decide)
  · exact (c6_depth_amended.2.1 3 (by decide)).1

/-- C7: a failing delegate invocation (timeout, other exception, or nonzero
exit) contributes nothing for its root and the scan proceeds to the next
root — for a positive cap, the scan equals the scan of the configuration
with the failing roots removed; in the fallback walker an unreadable
directory is skipped and traversal continues with its siblings, and an
unreadable root contributes nothing without aborting; in the embedding both
scans are total functions returning a list, never an exception. -/
theorem c7_failure_tolerance :
    (∀ (cfg : FilesConfig) (st : FSState), 0 < cfg.max_files →
      scanFd cfg st =
        scanFd { cfg with scan_paths := cfg.scan_paths.filter (fun sp => !fdRootFails st sp) } st) ∧
    (∀ (cfg : FilesConfig) (base cur n : String) (sub rest : Entries) (acc : List String),
      pyDirs cfg base cur (.cons (.dir n false sub) rest) acc =
        pyDirs cfg base cur rest acc) ∧
    (∀ (cfg : FilesConfig) (p : String) (es : Entries) (acc : List String),
      pyVisitRoot cfg p { readable := false, entries := es } acc = (acc, false)) := by
  refine ⟨?_, pyDirs_unreadable, pyVisitRoot_unreadable⟩
  intro cfg st hpos
  rw [scanFd, scanFd]
  rw [scanFdGo_filter_failing cfg st cfg.scan_paths [] (by simpa using hpos)]
  exact @scanFdGo_congr cfg
    { cfg with scan_paths := cfg.scan_paths.filter (fun sp => !fdRootFails st sp) }
    rfl rfl rfl (fun _ => Iff.rfl) st
    (cfg.scan_paths.filter (fun sp => !fdRootFails st sp)) []

/-- Fixture for the C7 witness: the middle root's delegate invocation times
out. -/
def c7Cfg : FilesConfig :=
  { scan_paths := ["/a", "/bad", "/c"]
    max_depth := 5
    include_extensions := []
    exclude_patterns := []
    max_files := 100 }

def c7St : FSState :=
  { expanduser := fun s => s
    lookup := fun s =>
      if s = "/a" then some { readable := true, entries := .cons (.file "f1.txt") .nil }
      else if s = "/bad" then some { readable := true, entries := .cons (.file "g.txt") .nil }
      else if s = "/c" then some { readable := true, entries := .cons (.file "h.txt") .nil }
      else none
    fdOutcome := fun s => if s = "/bad" then .timeout else .ok }

theorem c7_witness :
    scanFd c7Cfg c7St =
      scanFd { c7Cfg with scan_paths := c7Cfg.scan_paths.filter (fun sp => !fdRootFails c7St sp) } c7St ∧
    scanFd c7Cfg c7St = ["/a/f1.txt", "/c/h.txt"] :=
  ⟨c7_failure_tolerance.1 c7Cfg c7St (by decide), by decide⟩

/-- C8: both backends return exactly the result of the configuration whose
non-existent roots are removed — missing roots are silently dropped and the
remaining roots are scanned in declaration order. -/
theorem c8_missing_roots (cfg : FilesConfig) (st : FSState) :
    scanPython { cfg with scan_paths := cfg.scan_paths.filter (fun sp => (st.lookup (st.expanduser sp)).isSome) } st = scanPython cfg st ∧
    scanFd { cfg with scan_paths := cfg.scan_paths.filter (fun sp => (st.lookup (st.expanduser sp)).isSome) } st = scanFd cfg st := by
  constructor
  · rw [scanPython, scanPython]
    have h1 := @scanPyGo_congr
      { cfg with scan_paths := cfg.scan_paths.filter (fun sp => (st.lookup (st.expanduser sp)).isSome) }
      cfg rfl rfl rfl (fun _ => Iff.rfl) st
      (cfg.scan_paths.filter (fun sp => (st.lookup (st.expanduser sp)).isSome)) []
    rw [h1]
    exact (scanPyGo_filter_missing cfg st cfg.scan_paths []).symm
  · rw [scanFd, scanFd]
    have h1 := @scanFdGo_congr
      { cfg with scan_paths := cfg.scan_paths.filter (fun sp => (st.lookup (st.expanduser sp)).isSome) }
      cfg rfl rfl rfl (fun _ => Iff.rfl) st
      (cfg.scan_paths.filter (fun sp => (st.lookup (st.expanduser sp)).isSome)) []
    rw [h1]
    exact (scanFdGo_filter_missing cfg st cfg.scan_paths []).symm

/-- Fixture for C9: a regular file named like an exclusion pattern separates
the backends. -/
def c9Cfg : FilesConfig :=
  { scan_paths := ["/r"]
    max_depth := 5
    include_extensions := []
    exclude_patterns := ["build"]
    max_files := 10 }

def c9St : FSState :=
  { expanduser := fun s => s
    lookup := fun s =>
      if s = "/r" then
        some { readable := true, entries := .cons (.file "build") .nil }
      else none
    fdOutcome := fun _ => .ok }

/-- C9 counterexample: on a plain configuration (no extension filter, literal
exclusion pattern) with a successful delegate run, the fallback walker
returns a file that the delegate excludes — the two backends do not produce
identical result sets, because fd's exclusion also applies to files. -/
theorem c9_counterexample :
    scanPython c9Cfg c9St = ["/r/build"] ∧
    scanFd c9Cfg c9St = [] ∧
    ¬("/r/build" ∈ scanFd c9Cfg c9St ↔ "/r/build" ∈ scanPython c9Cfg c9St) := by
  refine ⟨by decide, by decide, ?_⟩
  intro hiff
  have h1 : "/r/build" ∈ scanPython c9Cfg c9St := by
    rw [show scanPython c9Cfg c9St = ["/r/build"] from by decide]
    simp
  have h2 := hiff.mpr h1
  rw [show scanFd c9Cfg c9St = ([] : List String) from by decide] at h2
  simp at h2

/-- C9 (amended): the backends produce identical result sets provided the
configuration has no extension filter, no regular file bears an excluded
name, every resolved root is well-formed, does not end in the separator and
its delegate invocation succeeds, and the cap is positive. -/
theorem c9_backend_parity_amended (cfg : FilesConfig) (st : FSState)
    (hpos : 0 < cfg.max_files) (hx : cfg.include_extensions = [])
    (hroots : ∀ sp ∈ cfg.scan_paths,
      sepEnds (st.expanduser sp) = false ∧
      ((st.lookup (st.expanduser sp)).all fun rd =>
        wfEntries rd.entries && noExcludedFiles cfg rd.entries) = true ∧
      ((st.lookup (st.expanduser sp)).isSome = true →
        st.fdOutcome (st.expanduser sp) = FdOutcome.ok)) :
    ∀ q : String, q ∈ scanFd cfg st ↔ q ∈ scanPython cfg st := by
  have hall : fdAll cfg st = pyAll cfg st := by
    rw [fdAll, pyAll]
    apply flatMap_congr_mem
    intro sp hsp
    obtain ⟨hsep, hwf, hok⟩ := hroots sp hsp
    apply rootContribution_parity cfg st sp hx hsep
    · intro rd hl
      rw [hl] at hwf
      simp only [Option.all] at hwf
      rw [Bool.and_eq_true] at hwf
      exact hwf
    · intro rd hl
      exact hok (by rw [hl]; rfl)
  intro q
  rw [scanFd_char cfg st hpos, scanPython_char cfg st hpos, hall]

/-- Fixture for the C9 witness: a mixed tree with an excluded directory, a
hidden directory, a hidden file and nested content. -/
def c9wCfg : FilesConfig :=
  { scan_paths := ["/r"]
    max_depth := 3
    include_extensions := []
    exclude_patterns := ["node_modules"]
    max_files := 100 }

def c9wSt : FSState :=
  { expanduser := fun s => s
    lookup := fun s =>
      if s = "/r" then
        some { readable := true
               entries := .cons (.file "a.txt")
                 (.cons (.dir "sub" true (.cons (.file "b.md") .nil))
                   (.cons (.dir "node_modules" true (.cons (.file "x.js") .nil))
                     (.cons (.dir ".hidden" true (.cons (.file "h") .nil))
                       (.cons (.file ".dot") .nil)))) }
      else none
    fdOutcome := fun _ => .ok }

theorem c9_witness :
    "/r/sub/b.md" ∈ scanFd c9wCfg c9wSt ↔ "/r/sub/b.md" ∈ scanPython c9wCfg c9wSt :=
  c9_backend_parity_amended c9wCfg c9wSt (by decide) rfl (by decide) "/r/sub/b.md"

/-- C10: with a non-empty extension list, the fallback walker accepts exactly
the non-hidden files whose after-final-dot suffix is literally a member of
the stored list (case-sensitively); an entry containing a dot — a
leading-dot entry such as ".txt" or a multi-part entry such as "tar.gz" —
can never match any file there; and the delegate command line passes each
configured entry with its leading dots stripped. -/
theorem c10_extension_semantics (cfg : FilesConfig) (hx : cfg.include_extensions ≠ []) :
    (∀ n : String, pyAcceptFile cfg n =
      (!hiddenName n && cfg.include_extensions.contains (specAfterDot n))) ∧
    (∀ e ∈ cfg.include_extensions, '.' ∈ e.data → ∀ n : String, pyExt n ≠ e) ∧
    (∀ p : String, List.Sublist
      (cfg.include_extensions.flatMap fun e => ["--extension", lstripDots e])
      (fdCmd cfg p)) := by
  refine ⟨?_, ?_, ?_⟩
  · intro n
    rw [pyAcceptFile]
    rw [show cfg.include_extensions.isEmpty = false from by
      simpa [List.isEmpty_iff] using hx]
    cases hh : hiddenName n with
    | true => simp
    | false =>
      rw [pyExt_eq_specAfterDot n hh]
      simp
  · intro e _ hd n
    exact pyExt_ne_of_dot n hd
  · intro p
    rw [fdCmd]
    rw [show cfg.include_extensions.isEmpty = false from by
      simpa [List.isEmpty_iff] using hx]
    simp only [Bool.false_eq_true, if_false]
    rw [List.append_assoc]
    exact (List.sublist_append_left _ _).trans (List.sublist_append_right _ _)

/-- Fixture for the C10 witness. -/
def c10Cfg : FilesConfig :=
  { scan_paths := ["/r"]
    max_depth := 5
    include_extensions := ["txt", ".md", "tar.gz"]
    exclude_patterns := []
    max_files := 10 }

theorem c10_witness :
    pyAcceptFile c10Cfg "a.txt" =
      (!hiddenName "a.txt" && c10Cfg.include_extensions.contains (specAfterDot "a.txt")) ∧
    pyExt "x.md" ≠ ".md" ∧
    pyExt "a.tar.gz" ≠ "tar.gz" ∧
    List.Sublist (c10Cfg.include_extensions.flatMap fun e => ["--extension", lstripDots e])
      (fdCmd c10Cfg "/r") := by
  have h := c10_extension_semantics c10Cfg (by decide)
  exact ⟨h.1 "a.txt", h.2.1 ".md" (by decide) (by decide) "x.md",
    h.2.1 "tar.gz" (by decide) (by decide) "a.tar.gz", h.2.2 "/r"⟩
